import Mathlib

/-!
# Verification of the nws stream-over-events transport

A shallow embedding, in Lean 4, of the parts of the `asmogo/nws` Go
repository that the verified claims are about: the message codec
(`protocol/message.go`, `protocol/signer.go`), the virtual stream
(`netstr/conn.go`), the exit dispatcher (`exit/exit.go`, `exit/nostr.go`,
`exit/https.go`) and the destination resolver (`protocol/domain.go`,
`netstr/conn.go`).

Conventions of the embedding:

* Go byte slices and Go strings are `List Nat` (each element a byte
  value); opaque event id strings are modelled as numbers.
* secp256k1 keys are modelled as numbers.  The public-key derivation and
  the ECDH shared secret of the external `btcec`/`nip44` libraries
  (declared out of scope by the specification, §1) are modelled from the
  spec as the commutative scalar action `x ↦ g·x mod p`: this preserves
  exactly the interface property the repository relies on (the
  conversation key derived from `(our_priv, their_pub)` is deterministic
  and equal on both sides, spec §3 "ConversationKey").
* The `nip44` authenticated encryption of the library is modelled from the
  spec (§4.C1: `decrypt` is the inverse of `encrypt` and fails with
  `BadCrypto` on authentication failure) as a key-tagged XOR stream
  cipher: encryption prepends a key-derived tag and masks every byte;
  decryption checks the tag, failing on mismatch, and unmasks.
* Go's `encoding/json` codec for `protocol.Message` is modelled from the
  spec (§3: "Serialization: any self-describing format with the stable
  field set above") as a length-delimited encoding of the same five
  fields; the repository-level fact proved about it is the round trip
  `UnmarshalJSON (MarshalJSON m) = some m`.
* Effectful Go code (relay publishes, backend dials, file writes) is
  embedded by passing the outcome of each external call as an explicit
  argument and, where a claim is about effects, by returning the list of
  performed effects.
-/

namespace NWS

/-- Go `[]byte` values, and Go strings viewed as their byte values. -/
abbrev Bytes := List Nat

/-! ## The secp256k1 / nip44 / nip04 library layer

Modelled from the spec (§1 declares the public-key cryptography primitives
out of scope, "assumed available as a library"; §3 "ConversationKey";
§4.C1 MessageCodec guarantees).

Go passes keys around as lowercase-hex strings and hex-decodes them at
use sites; hex is a bijection between valid hex strings and byte lists,
so the model represents every key string by the byte list it denotes and
treats hex encode/decode as the identity of the model. -/

/-- Big-endian byte-list value. -/
def bytesAsNat (bs : Bytes) : Nat := bs.foldl (fun a b => a * 256 + b) 0

/-- Big-endian bytes of a value, at a fixed width. -/
def natToBytesBE : Nat → Nat → Bytes
  | 0, _ => []
  | w + 1, v => natToBytesBE w (v / 256) ++ [v % 256]

/-- The secp256k1 field modulus (the concrete value is irrelevant to the
model; any modulus below `256 ^ 32` gives the commutative scalar action
the library provides). -/
def secpP : Nat := 115792089237316195423570985008687907853269984665640564039457584007908834671663

/-- The x-coordinate of the secp256k1 base point. -/
def secpG : Nat := 55066263022277343669578718895168534326250603453777594175500187360389116729240

/-- Modelled from the spec: the library derivation of the 32-byte x-only
public key from a private scalar (`nostr.GetPublicKey`,
`btcec.PrivKeyFromBytes` + `schnorr.SerializePubKey`), as the scalar
action `priv ↦ g·priv mod p`. -/
def pubOf (priv : Bytes) : Bytes := natToBytesBE 32 (secpG * bytesAsNat priv % secpP)

/-- Modelled from the spec: `nip44.GenerateConversationKey(privBytes,
pubBytes)` of the external library.  The public-key argument carries the
parity byte the repository prepends (`"02" + publicKey`); like the x-only
ECDH of the library, the derived key depends only on the x coordinate:
`shared = pub.x · priv mod p`. -/
def GenerateConversationKey (priv pub : Bytes) : Nat :=
  bytesAsNat (pub.drop 1) * bytesAsNat priv % secpP

/-- The key-derived authentication tag of the modelled nip44 cipher. -/
def nip44Tag (key : Nat) : Nat := key % 256

/-- Modelled from the spec (§4.C1 `encrypt`): nip44 authenticated
encryption as a key-tagged XOR stream: prepend the tag, mask every
plaintext byte. -/
def nip44Encrypt (key : Nat) (plain : Bytes) : Bytes :=
  nip44Tag key :: plain.map (fun b => b ^^^ nip44Tag key)

/-- Modelled from the spec (§4.C1 `decrypt`, "Fails with `BadCrypto` on
authentication failure"): check the tag, unmask on success. -/
def nip44Decrypt (key : Nat) (content : Bytes) : Option Bytes :=
  match content with
  | [] => none
  | tag :: rest =>
    if tag = nip44Tag key then some (rest.map (fun b => b ^^^ nip44Tag key)) else none

/-- Modelled from the spec: `nip04.ComputeSharedSecret(pub, priv)` of the
external library — the same ECDH scalar action, taking the bare x-only
public key. -/
def nip04ComputeSharedSecret (pub priv : Bytes) : Nat :=
  bytesAsNat pub * bytesAsNat priv % secpP

/-- The authentication tag of the modelled nip04 cipher.  It differs from
`nip44Tag`, reflecting that the two wire formats are incompatible. -/
def nip04Tag (key : Nat) : Nat := (key + 1) % 256

/-- Modelled from the spec: nip04 encryption (tag-and-mask, with the nip04
tag). -/
def nip04Encrypt (key : Nat) (plain : Bytes) : Bytes :=
  nip04Tag key :: plain.map (fun b => b ^^^ nip04Tag key)

/-- Modelled from the spec: nip04 decryption; fails on tag mismatch. -/
def nip04Decrypt (key : Nat) (content : Bytes) : Option Bytes :=
  match content with
  | [] => none
  | tag :: rest =>
    if tag = nip04Tag key then some (rest.map (fun b => b ^^^ nip04Tag key)) else none

/-- The nip44 round trip of the modelled library: decrypting with the same
conversation key returns the plaintext. -/
theorem nip44Decrypt_nip44Encrypt (key : Nat) (plain : Bytes) :
    nip44Decrypt key (nip44Encrypt key plain) = some plain := by
  simp only [nip44Encrypt, nip44Decrypt, if_pos rfl, List.map_map]
  have : ∀ b : Nat, b ^^^ nip44Tag key ^^^ nip44Tag key = b := by
    intro b
    rw [Nat.xor_assoc, Nat.xor_self, Nat.xor_zero]
  simp [Function.comp_def, this]

/-- `bytesAsNat` is a left inverse of `natToBytesBE` below the width. -/
theorem bytesAsNat_natToBytesBE (w v : Nat) (h : v < 256 ^ w) :
    bytesAsNat (natToBytesBE w v) = v := by
  induction w generalizing v with
  | zero => simpa [natToBytesBE, bytesAsNat] using (Nat.lt_one_iff.mp h).symm
  | succ w ih =>
    have hdiv : v / 256 < 256 ^ w := by
      rw [Nat.div_lt_iff_lt_mul (by norm_num)]
      calc v < 256 ^ (w + 1) := h
        _ = 256 ^ w * 256 := by ring
    have hfold : ∀ (bs : Bytes) (b : Nat),
        bytesAsNat (bs ++ [b]) = bytesAsNat bs * 256 + b := by
      intro bs b
      simp [bytesAsNat, List.foldl_append]
    rw [natToBytesBE, hfold, ih _ hdiv]
    omega

/-- Conversation keys agree on both sides: the key the writer derives from
`(priv_a, "02" + pub_b)` equals the key the reader derives from
`(priv_b, "02" + pub_a)` (spec §3, "equal on both sides"). -/
theorem GenerateConversationKey_symm (privA privB : Bytes) :
    GenerateConversationKey privA (2 :: pubOf privB)
      = GenerateConversationKey privB (2 :: pubOf privA) := by
  have hp : ∀ priv : Bytes, bytesAsNat (pubOf priv)
      = secpG * bytesAsNat priv % secpP := by
    intro priv
    apply bytesAsNat_natToBytesBE
    calc secpG * bytesAsNat priv % secpP < secpP := by
          apply Nat.mod_lt
          norm_num [secpP]
      _ < 256 ^ 32 := by norm_num [secpP]
  simp only [GenerateConversationKey, List.drop_succ_cons, List.drop_zero, hp]
  rw [Nat.mod_mul_mod, Nat.mod_mul_mod]
  rw [Nat.mul_assoc, Nat.mul_assoc, Nat.mul_comm (bytesAsNat privB) (bytesAsNat privA)]

/-! ## protocol/message.go -/

namespace protocol

/-- `protocol.MessageType` is a Go string type (source
`protocol/message.go`); modelled as its byte values. -/
abbrev MessageType := Bytes

/-- Source: `MessageTypeSocks5 = MessageType("SOCKS5")` (ASCII bytes). -/
def MessageTypeSocks5 : MessageType := [83, 79, 67, 75, 83, 53]

/-- Source: `MessageConnect = MessageType("CONNECT")` (ASCII bytes). -/
def MessageConnect : MessageType := [67, 79, 78, 78, 69, 67, 84]

/-- Source: `MessageConnectReverse = MessageType("CONNECTR")` (ASCII bytes). -/
def MessageConnectReverse : MessageType := [67, 79, 78, 78, 69, 67, 84, 82]

/-- `protocol.Message` (source `protocol/message.go`).  The 16-byte
`uuid.UUID` session key is modelled as a number; the string fields are byte
values. -/
structure Message where
  key : Nat
  type : MessageType
  data : Bytes
  destination : Bytes
  entryPublicAddress : Bytes
deriving DecidableEq

/-- The zero `protocol.Message`, as built by `NewMessage()` before options
are applied. -/
def Message.empty : Message :=
  { key := 0, type := [], data := [], destination := [], entryPublicAddress := [] }

/-- `protocol.MessageOption` (source `protocol/message.go`): a functional
option mutating the message under construction. -/
abbrev MessageOption := Message → Message

/-- Source: `WithUUID`. -/
def WithUUID (u : Nat) : MessageOption := fun m => { m with key := u }

/-- Source: `WithType`. -/
def WithType (t : MessageType) : MessageOption := fun m => { m with type := t }

/-- Source: `WithDestination`. -/
def WithDestination (d : Bytes) : MessageOption := fun m => { m with destination := d }

/-- Source: `WithEntryPublicAddress`. -/
def WithEntryPublicAddress (a : Bytes) : MessageOption := fun m => { m with entryPublicAddress := a }

/-- Source: `WithData`. -/
def WithData (d : Bytes) : MessageOption := fun m => { m with data := d }

/-- Source: `NewMessage(configs ...MessageOption)` applies every option to
the zero message. -/
def NewMessage (configs : List MessageOption) : Message :=
  configs.foldl (fun m config => config m) Message.empty

/-! ### The JSON codec for `Message`

Modelled from the spec: the repository serializes `Message` with Go's
`encoding/json` (an external library); spec §3 fixes only "any
self-describing format with the stable field set above".  The model is a
length-delimited encoding of the five fields in struct order. -/

/-- Encode one field: length header, then the bytes. -/
def encodeField (b : Bytes) : Bytes := b.length :: b

/-- Decode one field; left inverse of `encodeField`. -/
def decodeField : Bytes → Option (Bytes × Bytes)
  | [] => none
  | n :: rest => if n ≤ rest.length then some (rest.take n, rest.drop n) else none

/-- `protocol.MarshalJSON` (source `protocol/message.go`), at the modelled
serialization: the five fields of the struct in order. -/
def MarshalJSON (m : Message) : Bytes :=
  m.key :: (encodeField m.type ++ encodeField m.data
    ++ encodeField m.destination ++ encodeField m.entryPublicAddress)

/-- `protocol.UnmarshalJSON` (source `protocol/message.go`), at the
modelled serialization; fails on malformed input. -/
def UnmarshalJSON : Bytes → Option Message
  | [] => none
  | key :: rest => do
    let (ty, rest) ← decodeField rest
    let (data, rest) ← decodeField rest
    let (dest, rest) ← decodeField rest
    let (epa, rest) ← decodeField rest
    if rest.isEmpty then
      some { key := key, type := ty, data := data, destination := dest,
             entryPublicAddress := epa }
    else
      none

/-- Decoding inverts encoding of a single field. -/
theorem decodeField_encodeField (b rest : Bytes) :
    decodeField (encodeField b ++ rest) = some (b, rest) := by
  simp [decodeField, encodeField, List.take_left, List.drop_left]

/-- The codec round trip: deserializing a serialized message returns the
message (spec §3, "Serialization"). -/
theorem unmarshal_marshal (m : Message) : UnmarshalJSON (MarshalJSON m) = some m := by
  simp [MarshalJSON, UnmarshalJSON, List.append_assoc, decodeField_encodeField]
  have h4 : decodeField (encodeField m.entryPublicAddress ++ []) =
      some (m.entryPublicAddress, []) := decodeField_encodeField _ _
  simp at h4
  simp [h4]

/-- `protocol.GetEncryptionKeys(privateKey, publicKey)` (source
`protocol/message.go`): hex-decode the private key and `"02" + publicKey`.
Hex decoding of the repository's valid key strings is a bijection and is
the identity of the model; prepending the `"02"` parity byte prepends the
byte `2`. -/
def GetEncryptionKeys (privateKey publicKey : Bytes) : Bytes × Bytes :=
  (privateKey, 2 :: publicKey)

/-! ## protocol/signer.go -/

/-- Source `protocol/signer.go`: `KindEphemeralEvent` — the event kind
carrying all stream frames. -/
def KindEphemeralEvent : Nat := 28333

/-- Source `protocol/signer.go`: `KindAnnouncementEvent`. -/
def KindAnnouncementEvent : Nat := 38333

/-- Source `protocol/signer.go`: `KindCertificateEvent`. -/
def KindCertificateEvent : Nat := 38334

/-- Source `protocol/signer.go`: `KindPrivateKeyEvent`. -/
def KindPrivateKeyEvent : Nat := 38335

/-- One nostr tag, e.g. `nostr.Tag{"p", publicKey}`: the tag name (bytes)
and the tag value (bytes). -/
abbrev Tag := Bytes × Bytes

/-- The `"p"` tag name (ASCII). -/
def tagP : Bytes := [112]

/-- A `nostr.Event` as the repository builds it.  The `id` and `sig`
fields that `Event.Sign` fills are modelled by `id` (a deterministic hash
of the canonical fields, spec §6) and the `signed` flag. -/
structure NostrEvent where
  pubkey : Bytes
  createdAt : Nat
  kind : Nat
  tags : List Tag
  content : Bytes
  id : Nat
  signed : Bool
deriving DecidableEq

/-- Modelled from the spec (§6): the canonical event id is a deterministic
hash over `[0, pubkey, created_at, kind, tags, content]`; modelled as an
accumulating fold over those fields. -/
def eventIdOf (pubkey : Bytes) (createdAt kind : Nat) (tags : List Tag) (content : Bytes) : Nat :=
  ((0 :: createdAt :: kind :: pubkey ++ (tags.map (fun t => t.2)).flatten ++ content).foldl
    (fun a b => a * 1000003 + b + 1) 7)

/-- Modelled from the spec: `nostr.Event.Sign` computes the canonical id
and the schnorr signature over it (the signature itself carries no further
information the repository inspects). -/
def signEvent (ev : NostrEvent) : NostrEvent :=
  { ev with id := eventIdOf ev.pubkey ev.createdAt ev.kind ev.tags ev.content,
            signed := true }

/-- `protocol.EventSigner` (source `protocol/signer.go`). -/
structure EventSigner where
  PublicKey : Bytes
  privateKey : Bytes
deriving DecidableEq

/-- `protocol.NewEventSigner` (source `protocol/signer.go`): derives the
public key from the private key.  The derivation of the external library
cannot fail on the repository's valid hex keys, so the embedding is
total. -/
def NewEventSigner (privateKey : Bytes) : EventSigner :=
  { privateKey := privateKey, PublicKey := pubOf privateKey }

/-- `EventSigner.CreateEvent` (source `protocol/signer.go`): a new unsigned
event with the signer's public key and the current timestamp (passed
explicitly as `now`). -/
def EventSigner.CreateEvent (s : EventSigner) (now kind : Nat) (tags : List Tag) : NostrEvent :=
  { pubkey := s.PublicKey, createdAt := now, kind := kind, tags := tags,
    content := [], id := 0, signed := false }

/-- `EventSigner.CreateSignedEvent` (source `protocol/signer.go`): derive
the conversation key from `GetEncryptionKeys(privateKey, targetPublicKey)`,
build the message from the options, serialize, nip44-encrypt, and sign. -/
def EventSigner.CreateSignedEvent (s : EventSigner) (now : Nat) (targetPublicKey : Bytes)
    (kind : Nat) (tags : List Tag) (opts : List MessageOption) : NostrEvent :=
  let keys := GetEncryptionKeys s.privateKey targetPublicKey
  let sharedKey := GenerateConversationKey keys.1 keys.2
  let message := NewMessage opts
  let messageJSON := MarshalJSON message
  let encryptedMessage := nip44Encrypt sharedKey messageJSON
  let event := s.CreateEvent now kind tags
  signEvent { event with content := encryptedMessage }

end protocol

/-- A `nostr.IncomingEvent` as delivered by a subscription: the wrapped
event together with its originating relay.  `relayPresent` models the
`event.Relay == nil` check; `relayURL` is `msg.Relay.String()`. -/
structure IncomingEvent where
  relayPresent : Bool
  relayURL : Bytes
  id : Nat
  pubkey : Bytes
  kind : Nat
  content : Bytes
deriving DecidableEq

/-! ## netstr/conn.go — the virtual stream -/

namespace netstr

/-- `netstr.NostrConnection` (source `netstr/conn.go`); the data fields of
the struct.  The context, pool and subscription channel are supplied
explicitly where the methods need them. -/
structure NostrConnection where
  uuid : Nat
  privateKey : Bytes
  dst : Bytes
  readIDs : List Nat
  writeIDs : List Nat
  sentBytes : List Bytes
  sub : Bool
  defaultRelays : List Bytes
  targetPublicKey : Bytes
deriving DecidableEq

/-- The `NostrConnection` built by `NewConnection` before options are
applied. -/
def emptyConnection : NostrConnection :=
  { uuid := 0, privateKey := [], dst := [], readIDs := [], writeIDs := [],
    sentBytes := [], sub := false, defaultRelays := [], targetPublicKey := [] }

/-- `netstr.NostrConnOption` (source `netstr/conn.go`). -/
abbrev NostrConnOption := NostrConnection → NostrConnection

/-- Source: `WithPrivateKey`. -/
def WithPrivateKey (privateKey : Bytes) : NostrConnOption :=
  fun c => { c with privateKey := privateKey }

/-- Source: `WithDefaultRelays`. -/
def WithDefaultRelays (defaultRelays : List Bytes) : NostrConnOption :=
  fun c => { c with defaultRelays := defaultRelays }

/-- Source: `WithTargetPublicKey`. -/
def WithTargetPublicKey (pubKey : Bytes) : NostrConnOption :=
  fun c => { c with targetPublicKey := pubKey }

/-- Source: `WithSub` sets the `sub` flag. -/
def WithSub : NostrConnOption := fun c => { c with sub := true }

/-- Source: `WithDst`. -/
def WithDst (dst : Bytes) : NostrConnOption := fun c => { c with dst := dst }

/-- Source: `WithUUID`. -/
def WithUUID (u : Nat) : NostrConnOption := fun c => { c with uuid := u }

/-- `netstr.NewConnection` (source `netstr/conn.go`): the zero connection
with the options applied. -/
def NewConnection (opts : List NostrConnOption) : NostrConnection :=
  opts.foldl (fun c opt => opt c) emptyConnection

/-- The outcome of one `handleNostrRead` call (source `netstr/conn.go`):
either a returned byte count (with the event id it came from, `none` for
the `event.Relay == nil` early return), or one of the returned errors, or
blocking on an empty queue (the Go loop would wait for further events or
context cancellation).  The hex-decode and shared-key errors of the source
cannot fire in the model, where key strings are already byte lists. -/
inductive ReadOutcome where
  | ok (surfacedId : Option Nat) (n : Nat) (copied : Bytes)
  | decryptError
  | unmarshalError
  | blocked
deriving DecidableEq

/-- `NostrConnection.handleNostrRead` (source `netstr/conn.go` lines
119–165), over the queue of events pending on the subscription channel:
skip already-read ids, record the id, derive the conversation key from
`"02" + event.PubKey`, nip44-decrypt, unmarshal, and copy up to
`buffer`'s capacity (`cap`) bytes of `message.Data`.  Returns the
outcome, the updated connection and the unconsumed queue. -/
def handleNostrRead (nc : NostrConnection) (cap : Nat) :
    List IncomingEvent → ReadOutcome × NostrConnection × List IncomingEvent
  | [] => (.blocked, nc, [])
  | event :: rest =>
    if event.relayPresent = false then (.ok none 0 [], nc, rest)
    else if event.id ∈ nc.readIDs then handleNostrRead nc cap rest
    else
      let nc' := { nc with readIDs := nc.readIDs ++ [event.id] }
      let sharedKey := GenerateConversationKey nc.privateKey (2 :: event.pubkey)
      match nip44Decrypt sharedKey event.content with
      | none => (.decryptError, nc', rest)
      | some decodedMessage =>
        match protocol.UnmarshalJSON decodedMessage with
        | none => (.unmarshalError, nc', rest)
        | some message =>
          (.ok (some event.id) (min cap message.data.length) (message.data.take cap), nc', rest)

/-- One `handleNostrRead` call consumes at least one queued event. -/
theorem handleNostrRead_queue_shrinks (cap : Nat) :
    ∀ (queue : List IncomingEvent), queue ≠ [] → ∀ (nc : NostrConnection),
      (handleNostrRead nc cap queue).2.2.length < queue.length := by
  intro queue
  induction queue with
  | nil => intro h; exact absurd rfl h
  | cons event rest ih =>
    intro _ nc
    simp only [handleNostrRead]
    split
    · simp
    · split
      · cases rest with
        | nil => simp [handleNostrRead]
        | cons e2 r2 =>
          exact Nat.lt_trans (ih (by simp) nc) (by simp)
      · split
        · simp
        · split
          · simp
          · simp

/-- The read loop of a stream: repeatedly call `handleNostrRead` on the
remaining queue until it blocks, collecting, per successful read, the id
of the surfaced event and the bytes copied to the caller. -/
def readTrace (nc : NostrConnection) (cap : Nat) (queue : List IncomingEvent) :
    List (Nat × Bytes) :=
  match hq : queue with
  | [] => []
  | _ :: _ =>
    let r := handleNostrRead nc cap queue
    have hlt : r.2.2.length < queue.length :=
      handleNostrRead_queue_shrinks cap queue (by rw [hq]; simp) nc
    let tail := readTrace r.2.1 cap r.2.2
    match r.1 with
    | .ok (some eid) _ copied => (eid, copied) :: tail
    | _ => tail
termination_by queue.length

/-- On the empty queue the read loop surfaces nothing. -/
theorem readTrace_nil (nc : NostrConnection) (cap : Nat) : readTrace nc cap [] = [] := by
  simp [readTrace]

/-- One `handleNostrRead` call only grows `readIDs`, and an event id it
surfaces was not in `readIDs` before the call and is in it afterwards. -/
theorem handleNostrRead_readIDs (cap : Nat) :
    ∀ (queue : List IncomingEvent) (nc : NostrConnection),
      (∀ i ∈ nc.readIDs, i ∈ (handleNostrRead nc cap queue).2.1.readIDs) ∧
      (∀ eid n copied, (handleNostrRead nc cap queue).1 = .ok (some eid) n copied →
        eid ∉ nc.readIDs ∧ eid ∈ (handleNostrRead nc cap queue).2.1.readIDs) := by
  intro queue
  induction queue with
  | nil =>
    intro nc
    refine ⟨fun i hi => ?_, fun eid n copied h => ?_⟩
    · simpa [handleNostrRead] using hi
    · simp [handleNostrRead] at h
  | cons event rest ih =>
    intro nc
    by_cases hrelay : event.relayPresent = false
    · refine ⟨fun i hi => ?_, fun eid n copied h => ?_⟩
      · simpa [handleNostrRead, hrelay] using hi
      · simp [handleNostrRead, hrelay] at h
    · by_cases hseen : event.id ∈ nc.readIDs
      · have hrec : handleNostrRead nc cap (event :: rest) = handleNostrRead nc cap rest := by
          simp [handleNostrRead, hrelay, hseen]
        rw [hrec]
        exact ih nc
      · have hform : handleNostrRead nc cap (event :: rest)
            = (match nip44Decrypt
                (GenerateConversationKey nc.privateKey (2 :: event.pubkey)) event.content with
              | none => (.decryptError,
                  { nc with readIDs := nc.readIDs ++ [event.id] }, rest)
              | some decodedMessage =>
                match protocol.UnmarshalJSON decodedMessage with
                | none => (.unmarshalError,
                    { nc with readIDs := nc.readIDs ++ [event.id] }, rest)
                | some message =>
                  (.ok (some event.id) (min cap message.data.length) (message.data.take cap),
                    { nc with readIDs := nc.readIDs ++ [event.id] }, rest)) := by
          simp [handleNostrRead, hrelay, hseen]
        rcases hdec : nip44Decrypt
            (GenerateConversationKey nc.privateKey (2 :: event.pubkey)) event.content
          with _ | decoded
        · rw [hform]
          simp only [hdec]
          refine ⟨fun i hi => by simpa using Or.inl hi, fun eid n copied h => by simp at h⟩
        · rcases hun : protocol.UnmarshalJSON decoded with _ | message
          · rw [hform]
            simp only [hdec, hun]
            refine ⟨fun i hi => by simpa using Or.inl hi, fun eid n copied h => by simp at h⟩
          · rw [hform]
            simp only [hdec, hun]
            refine ⟨fun i hi => by simpa using Or.inl hi, fun eid n copied h => ?_⟩
            simp only [ReadOutcome.ok.injEq, Option.some.injEq] at h
            refine ⟨h.1 ▸ hseen, ?_⟩
            simp [← h.1]

/-- Every id the read loop surfaces is fresh relative to the starting
`readIDs`, and the surfaced ids contain no duplicate. -/
theorem readTrace_fresh_nodup (cap : Nat) :
    ∀ (n : Nat) (queue : List IncomingEvent), queue.length ≤ n →
      ∀ (nc : NostrConnection),
        (∀ x ∈ readTrace nc cap queue, x.1 ∉ nc.readIDs) ∧
        ((readTrace nc cap queue).map Prod.fst).Nodup := by
  intro n
  induction n with
  | zero =>
    intro queue hq nc
    have : queue = [] := List.length_eq_zero.mp (Nat.le_zero.mp hq)
    subst this
    simp [readTrace_nil]
  | succ n ih =>
    intro queue hq nc
    cases hqe : queue with
    | nil => simp [readTrace_nil]
    | cons e rest =>
      subst hqe
      have hshrink : (handleNostrRead nc cap (e :: rest)).2.2.length < (e :: rest).length :=
        handleNostrRead_queue_shrinks cap (e :: rest) (by simp) nc
      have hrest : (handleNostrRead nc cap (e :: rest)).2.2.length ≤ n := by
        have := Nat.lt_of_lt_of_le hshrink hq
        omega
      have hids := handleNostrRead_readIDs cap (e :: rest) nc
      have htail := ih (handleNostrRead nc cap (e :: rest)).2.2 hrest
        (handleNostrRead nc cap (e :: rest)).2.1
      have hunfold : readTrace nc cap (e :: rest)
          = (match (handleNostrRead nc cap (e :: rest)).1 with
            | .ok (some eid) _ copied =>
              (eid, copied) :: readTrace (handleNostrRead nc cap (e :: rest)).2.1 cap
                (handleNostrRead nc cap (e :: rest)).2.2
            | _ => readTrace (handleNostrRead nc cap (e :: rest)).2.1 cap
                (handleNostrRead nc cap (e :: rest)).2.2) := by
        rw [readTrace]
      cases hout : (handleNostrRead nc cap (e :: rest)).1 with
      | ok oid nn copied =>
        rcases oid with _ | eid
        · rw [hunfold]
          simp only [hout]
          refine ⟨fun x hx => ?_, htail.2⟩
          intro hmem
          exact (htail.1 x hx) (hids.1 x.1 hmem)
        · have hfresh := hids.2 eid nn copied hout
          rw [hunfold]
          simp only [hout]
          constructor
          · intro x hx
            rcases List.mem_cons.mp hx with hx1 | hx2
            · rw [hx1]; exact hfresh.1
            · intro hmem
              exact (htail.1 x hx2) (hids.1 x.1 hmem)
          · refine List.nodup_cons.mpr ⟨?_, htail.2⟩
            intro hmem
            rcases List.mem_map.mp hmem with ⟨y, hy, hyeq⟩
            exact (htail.1 y hy) (hyeq ▸ hfresh.2)
      | decryptError =>
        rw [hunfold]
        simp only [hout]
        exact ⟨fun x hx => fun hmem => (htail.1 x hx) (hids.1 x.1 hmem), htail.2⟩
      | unmarshalError =>
        rw [hunfold]
        simp only [hout]
        exact ⟨fun x hx => fun hmem => (htail.1 x hx) (hids.1 x.1 hmem), htail.2⟩
      | blocked =>
        rw [hunfold]
        simp only [hout]
        exact ⟨fun x hx => fun hmem => (htail.1 x hx) (hids.1 x.1 hmem), htail.2⟩

end netstr

/-! ## The Go `encoding/base32` library (HexEncoding, no padding)

Modelled from the library's RFC 4648 specification: bytes are read as a
big-endian bit stream, grouped into 5-bit values (the last group
zero-padded), and mapped through the extended-hex alphabet
`0123456789ABCDEFGHIJKLMNOPQRSTUV`.  Decoding inverts this; it fails on a
byte outside the alphabet and on an impossible unpadded length. -/

/-- The high `w` bits of `v`, most significant first. -/
def natToBits : Nat → Nat → List Bool
  | 0, _ => []
  | w + 1, v => v.testBit w :: natToBits w v

/-- Value of a most-significant-first bit list. -/
def bitsToNat : List Bool → Nat
  | [] => 0
  | b :: r => (cond b 1 0) * 2 ^ r.length + bitsToNat r

theorem natToBits_length (w v : Nat) : (natToBits w v).length = w := by
  induction w generalizing v with
  | zero => simp [natToBits]
  | succ w ih => simp [natToBits, ih]

theorem bitsToNat_lt (l : List Bool) : bitsToNat l < 2 ^ l.length := by
  induction l with
  | nil => simp [bitsToNat]
  | cons b r ih =>
    have hc : (cond b 1 0) ≤ 1 := by cases b <;> simp
    calc bitsToNat (b :: r) = (cond b 1 0) * 2 ^ r.length + bitsToNat r := rfl
      _ ≤ 1 * 2 ^ r.length + bitsToNat r := by
          exact Nat.add_le_add_right (Nat.mul_le_mul_right _ hc) _
      _ < 2 ^ r.length + 2 ^ r.length := by omega
      _ = 2 ^ (b :: r).length := by rw [List.length_cons]; ring

/-- `natToBits` depends only on the low `w` bits. -/
theorem natToBits_add_mul_pow : ∀ (w c m : Nat), natToBits w (c * 2 ^ w + m) = natToBits w m := by
  intro w
  induction w with
  | zero => intro c m; simp [natToBits]
  | succ w ih =>
    intro c m
    have harg : c * 2 ^ (w + 1) + m = (2 * c) * 2 ^ w + m := by ring
    have hhead : (c * 2 ^ (w + 1) + m).testBit w = m.testBit w := by
      have hP : 0 < 2 ^ w := Nat.pos_pow_of_pos w (by norm_num)
      rw [Nat.testBit_to_div_mod, Nat.testBit_to_div_mod]
      have hdiv : (c * 2 ^ (w + 1) + m) / 2 ^ w = 2 * c + m / 2 ^ w := by
        have : c * 2 ^ (w + 1) + m = 2 ^ w * (2 * c) + m := by ring
        rw [this, Nat.mul_add_div hP]
      rw [hdiv]
      simp only [decide_eq_decide]
      omega
    rw [natToBits, natToBits, hhead, harg, ih (2 * c) m]

theorem natToBits_bitsToNat : ∀ (l : List Bool), natToBits l.length (bitsToNat l) = l := by
  intro l
  induction l with
  | nil => simp [natToBits]
  | cons b r ih =>
    have hP : 0 < 2 ^ r.length := Nat.pos_pow_of_pos _ (by norm_num)
    have hm : bitsToNat r < 2 ^ r.length := bitsToNat_lt r
    have hhead : (bitsToNat (b :: r)).testBit r.length = b := by
      rw [Nat.testBit_to_div_mod]
      have hdiv : bitsToNat (b :: r) / 2 ^ r.length = cond b 1 0 := by
        show ((cond b 1 0) * 2 ^ r.length + bitsToNat r) / 2 ^ r.length = cond b 1 0
        have : (cond b 1 0) * 2 ^ r.length + bitsToNat r
            = 2 ^ r.length * (cond b 1 0) + bitsToNat r := by ring
        rw [this, Nat.mul_add_div hP, Nat.div_eq_of_lt hm, Nat.add_zero]
      rw [hdiv]
      cases b <;> simp
    have htail : natToBits r.length (bitsToNat (b :: r)) = r := by
      show natToBits r.length ((cond b 1 0) * 2 ^ r.length + bitsToNat r) = r
      rw [natToBits_add_mul_pow, ih]
    calc natToBits (b :: r).length (bitsToNat (b :: r))
        = (bitsToNat (b :: r)).testBit r.length
            :: natToBits r.length (bitsToNat (b :: r)) := rfl
      _ = b :: r := by rw [hhead, htail]

theorem bitsToNat_natToBits : ∀ (w v : Nat), bitsToNat (natToBits w v) = v % 2 ^ w := by
  intro w
  induction w with
  | zero => intro v; simp [natToBits, bitsToNat, Nat.mod_one]
  | succ w ih =>
    intro v
    have hlen : (natToBits w v).length = w := natToBits_length w v
    calc bitsToNat (natToBits (w + 1) v)
        = (cond (v.testBit w) 1 0) * 2 ^ (natToBits w v).length + bitsToNat (natToBits w v) := rfl
      _ = (v / 2 ^ w % 2) * 2 ^ w + v % 2 ^ w := by
          rw [hlen, ih]
          congr 1
          rw [Nat.testBit_to_div_mod]
          rcases Nat.mod_two_eq_zero_or_one (v / 2 ^ w) with h | h <;> simp [h]
      _ = v % 2 ^ (w + 1) := by
          rw [Nat.pow_succ, Nat.mod_mul]
          ring

/-- Fuelled worker for `chunkList` (the fuel keeps the recursion
structural; `chunkList` supplies enough of it). -/
def chunkListF : Nat → Nat → List α → List (List α)
  | 0, _, _ => []
  | _ + 1, _, [] => []
  | f + 1, n, x :: xs => (x :: xs).take n :: chunkListF f n ((x :: xs).drop n)

/-- Split a list into consecutive chunks of `n` elements. -/
def chunkList (n : Nat) (l : List α) : List (List α) := chunkListF l.length n l

/-- For a positive chunk size, any sufficient fuel computes the same
chunks. -/
theorem chunkListF_fuel (n : Nat) :
    ∀ (f1 : Nat) (l : List α) (f2 : Nat), l.length ≤ f1 → l.length ≤ f2 →
      chunkListF f1 (n + 1) l = chunkListF f2 (n + 1) l := by
  intro f1
  induction f1 with
  | zero =>
    intro l f2 h1 _
    have : l = [] := List.length_eq_zero.mp (Nat.le_zero.mp h1)
    subst this
    cases f2 <;> rfl
  | succ f1 ih =>
    intro l f2 h1 h2
    cases l with
    | nil => cases f2 <;> rfl
    | cons x xs =>
      obtain ⟨g2, rfl⟩ : ∃ g2, f2 = g2 + 1 := by
        cases f2 with
        | zero => simp at h2
        | succ g2 => exact ⟨g2, rfl⟩
      show ((x :: xs).take (n + 1) :: chunkListF f1 (n + 1) ((x :: xs).drop (n + 1)))
          = ((x :: xs).take (n + 1) :: chunkListF g2 (n + 1) ((x :: xs).drop (n + 1)))
      have hd : ((x :: xs).drop (n + 1)).length ≤ f1 := by
        simp only [List.length_drop, List.length_cons]
        simp only [List.length_cons] at h1
        omega
      have hd2 : ((x :: xs).drop (n + 1)).length ≤ g2 := by
        simp only [List.length_drop, List.length_cons]
        simp only [List.length_cons] at h2
        omega
      rw [ih _ _ hd hd2]

theorem chunkList_cons_unfold (n : Nat) (l : List α) (h : l ≠ []) :
    chunkList (n + 1) l = l.take (n + 1) :: chunkList (n + 1) (l.drop (n + 1)) := by
  cases l with
  | nil => exact absurd rfl h
  | cons x xs =>
    show chunkListF (x :: xs).length (n + 1) (x :: xs) = _
    have hlen : (x :: xs).length = xs.length + 1 := by simp
    rw [hlen]
    show ((x :: xs).take (n + 1) :: chunkListF xs.length (n + 1) ((x :: xs).drop (n + 1))) = _
    congr 1
    apply chunkListF_fuel
    · simp only [List.length_drop, List.length_cons]
      omega
    · exact le_rfl

/-- Chunking the concatenation of uniform blocks recovers the blocks. -/
theorem chunkList_flatten_blocks (n : Nat) (hn : n ≠ 0) :
    ∀ (blocks : List (List α)), (∀ b ∈ blocks, b.length = n) →
      chunkList n blocks.flatten = blocks := by
  intro blocks
  induction blocks with
  | nil =>
    intro _
    simp only [List.flatten_nil]
    cases n with
    | zero => exact absurd rfl hn
    | succ m => simp [chunkList, chunkListF]
  | cons b bs ih =>
    intro hlen
    have hb : b.length = n := hlen b (by simp)
    obtain ⟨m, rfl⟩ : ∃ m, n = m + 1 := ⟨n - 1, by omega⟩
    have hbne : (b :: bs).flatten ≠ [] := by
      have : b ≠ [] := by
        intro hb0
        rw [hb0] at hb
        simp at hb
      cases b with
      | nil => exact absurd rfl this
      | cons y ys => simp
    rw [chunkList_cons_unfold m _ hbne]
    have hflat : (b :: bs).flatten = b ++ bs.flatten := by simp
    have htake : (b :: bs).flatten.take (m + 1) = b := by
      rw [hflat, ← hb, List.take_left]
    have hdrop : (b :: bs).flatten.drop (m + 1) = bs.flatten := by
      rw [hflat, ← hb, List.drop_left]
    rw [htake, hdrop, ih (fun x hx => hlen x (by simp [hx]))]

/-- Chunking then concatenating is the identity. -/
theorem chunkList_flatten (m : Nat) :
    ∀ (fuel : Nat) (l : List α), l.length ≤ fuel → (chunkList (m + 1) l).flatten = l := by
  intro fuel
  induction fuel with
  | zero =>
    intro l hl
    have : l = [] := List.length_eq_zero.mp (Nat.le_zero.mp hl)
    subst this
    simp [chunkList, chunkListF]
  | succ fuel ih =>
    intro l hl
    cases l with
    | nil => simp [chunkList, chunkListF]
    | cons x xs =>
      rw [chunkList_cons_unfold m _ (by simp)]
      simp only [List.length_cons] at hl
      have hdroplen : ((x :: xs).drop (m + 1)).length ≤ fuel := by
        simp only [List.length_drop, List.length_cons]
        omega
      simp only [List.flatten_cons, ih _ hdroplen, List.take_append_drop]

/-- When the chunk size divides the length, every chunk is full. -/
theorem chunkList_length_of_dvd (m : Nat) :
    ∀ (fuel : Nat) (l : List α), l.length ≤ fuel → (m + 1) ∣ l.length →
      ∀ b ∈ chunkList (m + 1) l, b.length = m + 1 := by
  intro fuel
  induction fuel with
  | zero =>
    intro l hl _ b hb
    have : l = [] := List.length_eq_zero.mp (Nat.le_zero.mp hl)
    subst this
    simp [chunkList, chunkListF] at hb
  | succ fuel ih =>
    intro l hl hdvd b hb
    cases l with
    | nil => simp [chunkList, chunkListF] at hb
    | cons x xs =>
      rw [chunkList_cons_unfold m _ (by simp)] at hb
      rcases hdvd with ⟨k, hk⟩
      have hkpos : k ≠ 0 := by
        intro h0
        rw [h0, Nat.mul_zero] at hk
        simp at hk
      obtain ⟨k2, rfl⟩ : ∃ k2, k = k2 + 1 := ⟨k - 1, by omega⟩
      have hk2 : (x :: xs).length = (m + 1) * k2 + (m + 1) := by
        rw [hk]
        ring
      have hge : m + 1 ≤ (x :: xs).length := by omega
      rcases List.mem_cons.mp hb with hb1 | hb2
      · rw [hb1, List.length_take]
        omega
      · simp only [List.length_cons] at hl hk2
        have hdroplen : ((x :: xs).drop (m + 1)).length ≤ fuel := by
          simp only [List.length_drop, List.length_cons]
          omega
        have hdvd' : (m + 1) ∣ ((x :: xs).drop (m + 1)).length := by
          simp only [List.length_drop, List.length_cons]
          exact ⟨k2, by omega⟩
        exact ih _ hdroplen hdvd' b hb2

/-- `mapM` over a mapped list where decoding succeeds pointwise. -/
theorem mapM_map_eq_some {α β γ : Type} (f : α → Option β) (g : γ → α) (h : γ → β) :
    ∀ (l : List γ), (∀ x ∈ l, f (g x) = some (h x)) → (l.map g).mapM f = some (l.map h) := by
  intro l
  induction l with
  | nil => intro _; rfl
  | cons x xs ih =>
    intro hp
    rw [List.map_cons, List.mapM_cons, hp x (by simp), ih (fun y hy => hp y (by simp [hy]))]
    rfl

/-- One character of the extended-hex base32 alphabet. -/
def b32EncByte (v : Nat) : Nat := if v < 10 then 48 + v else 55 + v

/-- Inverse alphabet lookup; fails outside `0-9A-V`. -/
def b32DecByte (c : Nat) : Option Nat :=
  if 48 ≤ c ∧ c ≤ 57 then some (c - 48)
  else if 65 ≤ c ∧ c ≤ 86 then some (c - 55)
  else none

theorem b32DecByte_b32EncByte (v : Nat) (h : v < 32) :
    b32DecByte (b32EncByte v) = some v := by
  unfold b32EncByte b32DecByte
  by_cases h10 : v < 10
  · rw [if_pos h10, if_pos (by omega)]
    congr 1
    omega
  · rw [if_neg h10, if_neg (by omega), if_pos (by omega)]
    congr 1
    omega

/-- `base32.HexEncoding.WithPadding(base32.NoPadding).EncodeToString`. -/
def base32HexEncodeNoPad (bs : Bytes) : Bytes :=
  let bits := (bs.map (natToBits 8)).flatten
  let padded := bits ++ List.replicate ((5 - bits.length % 5) % 5) false
  (chunkList 5 padded).map (fun g => b32EncByte (bitsToNat g))

/-- `base32.HexEncoding.WithPadding(base32.NoPadding).DecodeString`:
fails on an impossible unpadded length or a byte outside the alphabet. -/
def base32HexDecodeNoPad (s : Bytes) : Option Bytes :=
  if s.length % 8 = 1 ∨ s.length % 8 = 3 ∨ s.length % 8 = 6 then none
  else
    match s.mapM b32DecByte with
    | none => none
    | some vals =>
      let bits := (vals.map (natToBits 5)).flatten
      some ((chunkList 8 (bits.take (8 * (5 * s.length / 8)))).map bitsToNat)

theorem flatten_map_natToBits_length (w : Nat) (l : Bytes) :
    ((l.map (natToBits w)).flatten).length = w * l.length := by
  induction l with
  | nil => simp
  | cons b r ih =>
    simp only [List.map_cons, List.flatten_cons, List.length_append, ih,
      natToBits_length, List.length_cons]
    ring

theorem flatten_length_uniform {α : Type} (n : Nat) :
    ∀ (blocks : List (List α)), (∀ b ∈ blocks, b.length = n) →
      blocks.flatten.length = n * blocks.length := by
  intro blocks
  induction blocks with
  | nil => intro _; simp
  | cons b rest ih =>
    intro hb
    simp only [List.flatten_cons, List.length_append, hb b (by simp),
      ih (fun x hx => hb x (by simp [hx])), List.length_cons]
    ring

/-- The base32 extended-hex round trip: decoding an encoding returns the
original bytes. -/
theorem base32_roundTrip (bs : Bytes) (h : ∀ b ∈ bs, b < 256) :
    base32HexDecodeNoPad (base32HexEncodeNoPad bs) = some bs := by
  set bits := (bs.map (natToBits 8)).flatten with hbits
  have hbitslen : bits.length = 8 * bs.length := flatten_map_natToBits_length 8 bs
  set pad := (5 - bits.length % 5) % 5 with hpad
  set padded := bits ++ List.replicate pad false with hpadded
  have hpaddedlen : padded.length = bits.length + pad := by
    simp [hpadded]
  have hdvd5 : (5 : Nat) ∣ padded.length := by
    rw [hpaddedlen]
    have := hpad
    omega
  set blocks := chunkList 5 padded with hblocks
  have hflat : blocks.flatten = padded := chunkList_flatten 4 padded.length padded le_rfl
  have hblen : ∀ b ∈ blocks, b.length = 5 :=
    chunkList_length_of_dvd 4 padded.length padded le_rfl hdvd5
  have henc : base32HexEncodeNoPad bs = blocks.map (fun g => b32EncByte (bitsToNat g)) := by
    simp only [base32HexEncodeNoPad]
  have hblockstot : 5 * blocks.length = padded.length := by
    rw [← hflat, flatten_length_uniform 5 blocks hblen]
  have hK5 : 5 * blocks.length = 8 * bs.length + pad := by
    rw [hblockstot, hpaddedlen, hbitslen]
  have hpadlt : pad < 5 := by
    rw [hpad]
    omega
  have hmapM : (blocks.map (fun g => b32EncByte (bitsToNat g))).mapM b32DecByte
      = some (blocks.map bitsToNat) := by
    apply mapM_map_eq_some
    intro g hg
    apply b32DecByte_b32EncByte
    have := bitsToNat_lt g
    rw [hblen g hg] at this
    exact this
  have hback : (blocks.map bitsToNat).map (natToBits 5) = blocks := by
    rw [List.map_map]
    have hpt : ∀ g ∈ blocks, (natToBits 5 ∘ bitsToNat) g = id g := by
      intro g hg
      have := natToBits_bitsToNat g
      rw [hblen g hg] at this
      simpa using this
    rw [List.map_congr_left hpt, List.map_id]
  have hdivK : 5 * blocks.length / 8 = bs.length := by omega
  have htake : padded.take (8 * bs.length) = bits := by
    rw [hpadded, ← hbitslen, List.take_left]
  have hchunk8 : chunkList 8 bits = bs.map (natToBits 8) := by
    rw [hbits]
    exact chunkList_flatten_blocks 8 (by norm_num) (bs.map (natToBits 8))
      (by intro b hb; rcases List.mem_map.mp hb with ⟨v, _, rfl⟩; exact natToBits_length 8 v)
  have hfinal : (bs.map (natToBits 8)).map bitsToNat = bs := by
    rw [List.map_map]
    have hpt : ∀ b ∈ bs, (bitsToNat ∘ natToBits 8) b = id b := by
      intro b hb
      simp only [Function.comp_apply, id_eq, bitsToNat_natToBits]
      exact Nat.mod_eq_of_lt (by have := h b hb; norm_num; omega)
    rw [List.map_congr_left hpt, List.map_id]
  rw [henc]
  unfold base32HexDecodeNoPad
  rw [List.length_map]
  rw [if_neg (by omega)]
  rw [hmapM]
  simp only [hback, hflat, hdivK, htake, hchunk8, hfinal]

/-! ## Go `strings`/`net`/`url`/`idna`/`publicsuffix` library helpers

The `strings` package functions are modelled byte for byte.  `url.Parse`
(host extraction), `net.ParseIP`, `idna.ToASCII` and
`publicsuffix.EffectiveTLDPlusOne` are external libraries, modelled from
their documented behaviour on the hostname-shaped inputs the repository
feeds them (no userinfo, path, query or fragment; `nostr` and other
made-up TLDs are not on the public suffix list, so the default wildcard
rule applies and the effective TLD is the final label). -/

/-- `strings.ToLower` on an ASCII byte. -/
def toLowerByte (c : Nat) : Nat := if 65 ≤ c ∧ c ≤ 90 then c + 32 else c

/-- `strings.ToUpper` on an ASCII byte. -/
def toUpperByte (c : Nat) : Nat := if 97 ≤ c ∧ c ≤ 122 then c - 32 else c

/-- `strings.ToLower` (ASCII). -/
def strToLower (s : Bytes) : Bytes := s.map toLowerByte

/-- `strings.ToUpper` (ASCII). -/
def strToUpper (s : Bytes) : Bytes := s.map toUpperByte

/-- Whitespace bytes trimmed by `strings.TrimSpace`. -/
def isSpaceByte (c : Nat) : Bool :=
  c = 32 || c = 9 || c = 10 || c = 11 || c = 12 || c = 13

/-- `strings.TrimSpace` (ASCII whitespace). -/
def trimSpace (s : Bytes) : Bytes :=
  ((s.dropWhile isSpaceByte).reverse.dropWhile isSpaceByte).reverse

/-- `strings.Index`: position of the first occurrence of `pat`. -/
def indexOfSeq (pat : Bytes) : Bytes → Option Nat
  | [] => if pat.isPrefixOf ([] : Bytes) then some 0 else none
  | c :: rest =>
    if pat.isPrefixOf (c :: rest) then some 0
    else (indexOfSeq pat rest).map (· + 1)

/-- `strings.Contains`. -/
def containsSeq (pat s : Bytes) : Bool := (indexOfSeq pat s).isSome

/-- `strings.TrimSuffix`. -/
def trimSuffixL (l suf : Bytes) : Bytes :=
  if suf.isSuffixOf l then l.take (l.length - suf.length) else l

/-- `strings.TrimPrefix`. -/
def trimLeadL (l pre : Bytes) : Bytes :=
  if pre.isPrefixOf l then l.drop pre.length else l

/-- Modelled from the library: `net.ParseIP` succeeds only on strings of
digits, dots and colons (the repository only uses the nil/non-nil
distinction, and every hostname it cares about contains a letter). -/
def netParseIP (s : Bytes) : Bool :=
  !s.isEmpty && s.all (fun c => (48 ≤ c && c ≤ 57) || c = 46 || c = 58)

/-- Modelled from the library: `idna.ToASCII` is the identity on ASCII
hostnames and is out of scope beyond them. -/
def idnaToASCII (s : Bytes) : Option Bytes :=
  if s.all (· < 128) then some s else none

/-- Modelled from the library: `publicsuffix.EffectiveTLDPlusOne` under
the default wildcard rule (the TLDs the repository meets are not on the
public suffix list): the last two labels, failing when fewer than two
nonempty labels exist. -/
def effectiveTLDPlusOne (dom : Bytes) : Option Bytes :=
  match (dom.splitOn 46).reverse with
  | tld :: name :: _ =>
    if tld ≠ [] ∧ name ≠ [] then some (name ++ 46 :: tld) else none
  | _ => none

/-- Modelled from the library: the host component `url.Parse` extracts
from the repository's inputs — after the default `//` scheme marker, up
to a path, query or fragment delimiter; empty without an authority
marker.  Control bytes make parsing fail. -/
def urlParseHost (s : Bytes) : Option Bytes :=
  if s.any (fun c => c < 32 || c = 127) then none
  else if [47, 47].isPrefixOf s then
    some ((s.drop 2).takeWhile (fun c => !(c = 47 || c = 63 || c = 35)))
  else some []

/-! ## protocol/domain.go -/

namespace protocol

/-- `protocol.URL` (source `protocol/domain.go`): the extra fields the
repository reads. -/
structure URL where
  SubName : Bytes
  Name : Bytes
  TLD : Bytes
  Port : Bytes
  IsDomain : Bool
deriving DecidableEq

/-- ASCII `"localhost"`. -/
def localhostBytes : Bytes := [108, 111, 99, 97, 108, 104, 111, 115, 116]

/-- ASCII `"nostr"`. -/
def nostrBytes : Bytes := [110, 111, 115, 116, 114]

/-- `protocol.RemoveScheme` (source `protocol/domain.go`). -/
def RemoveScheme (s : Bytes) : Bytes :=
  if containsSeq [58, 47, 47] s then
    s.drop (((indexOfSeq [58, 47, 47] s).getD 0) + 3)
  else if containsSeq [47, 47] s then
    s.drop (((indexOfSeq [47, 47] s).getD 0) + 2)
  else s

/-- `protocol.AddDefaultScheme` (source `protocol/domain.go`). -/
def AddDefaultScheme (s : Bytes) : Bytes :=
  if !containsSeq [47, 47] s
      || (!containsSeq [47, 47] s && !containsSeq [58] s && !containsSeq [64] s) then
    47 :: 47 :: s
  else s

/-- The character loop of `protocol.IsDomainName` (source
`protocol/domain.go`), carrying `last`, `nonNumeric` and `partlen`. -/
def isDomainLoop : Bytes → Nat → Bool → Nat → Bool
  | [], last, nonNumeric, partlen =>
    if last = 45 ∨ partlen > 63 then false else nonNumeric
  | c :: rest, last, nonNumeric, partlen =>
    if (97 ≤ c ∧ c ≤ 122) ∨ (65 ≤ c ∧ c ≤ 90) ∨ c = 95 then
      isDomainLoop rest c true (partlen + 1)
    else if 48 ≤ c ∧ c ≤ 57 then
      isDomainLoop rest c nonNumeric (partlen + 1)
    else if c = 45 then
      if last = 46 then false else isDomainLoop rest c true (partlen + 1)
    else if c = 46 then
      if last = 46 ∨ last = 45 then false
      else if partlen > 63 ∨ partlen = 0 then false
      else isDomainLoop rest c nonNumeric 0
    else false

/-- `protocol.IsDomainName` (source `protocol/domain.go`). -/
def IsDomainName (name0 : Bytes) : Bool :=
  let name := RemoveScheme name0
  let split := name.splitOn 46
  if split.length < 2 then false
  else
    let l := name.length
    if l = 0 ∨ l > 254 ∨ (l = 254 ∧ name.getLast? ≠ some 46) then false
    else isDomainLoop name 46 false 0

/-- The scan of `protocol.domainPort` (source `protocol/domain.go`) from
the end of the host: collect port digits, split at a colon, bail out at
the first other byte. -/
def domainPortLoop (host : Bytes) : Bytes → Bytes → Bytes × Bytes
  | [], _ => (host, [])
  | c :: more, acc =>
    if c = 58 then (more.reverse, acc)
    else if 48 ≤ c ∧ c ≤ 57 then domainPortLoop host more (c :: acc)
    else (host, [])

/-- `protocol.domainPort` (source `protocol/domain.go`). -/
def domainPort (host : Bytes) : Bytes × Bytes :=
  domainPortLoop host host.reverse []

/-- `protocol.Parse` (source `protocol/domain.go`): trim, add the default
scheme, extract and lowercase the host, split the port, then classify as
IP / localhost / domain, computing eTLD+1, name, TLD, subdomain and the
`IsDomainName` validity of the ASCII form. -/
def Parse (urlString : Bytes) : Option URL :=
  let s := trimSpace urlString
  if s = [] then none
  else
    match urlParseHost (AddDefaultScheme s) with
    | none => none
    | some host0 =>
      let host := strToLower host0
      if host = [] then
        some { SubName := [], Name := [], TLD := [], Port := [], IsDomain := false }
      else
        let dp := domainPort host
        let dom := dp.1
        let port := dp.2
        if netParseIP (trimLeadL (trimSuffixL dom [93]) [91]) then
          match idnaToASCII dom with
          | none => none
          | some a =>
            some { SubName := [], Name := dom, TLD := [], Port := port,
                   IsDomain := IsDomainName a }
        else if dom = localhostBytes then
          match idnaToASCII dom with
          | none => none
          | some a =>
            some { SubName := [], Name := [], TLD := dom, Port := port,
                   IsDomain := IsDomainName a }
        else
          match effectiveTLDPlusOne dom with
          | none => none
          | some etld1 =>
            let i := (indexOfSeq [46] etld1).getD 0
            let domName := etld1.take i
            let tld := etld1.drop (i + 1)
            let rest := trimSuffixL dom (46 :: etld1)
            let sub := if rest ≠ dom then rest else []
            match idnaToASCII dom with
            | none => none
            | some a =>
              some { SubName := sub, Name := domName, TLD := tld, Port := port,
                     IsDomain := IsDomainName a }

end protocol

/-- Modelled from the library: `schnorr.ParsePubKey` accepts the 32-byte
x-only serialization of a point (the lift-x on-curve check is outside the
model; every key the exit serializes passes it). -/
def schnorrParsePubKey (bs : Bytes) : Option Bytes :=
  if bs.length = 32 then some bs else none

/-- Modelled from the library: `PublicKey.SerializeCompressed` of a
schnorr-parsed (even-y) point — the `0x02` parity byte then the x
bytes. -/
def serializeCompressed (pk : Bytes) : Bytes := 2 :: pk

/-- Modelled from the library: the result of `nip19.Decode` on an
`npub`/`nprofile` token (other prefixes decode to other kinds). -/
inductive Nip19Decoded where
  | npub (pk : Bytes)
  | nprofile (pk : Bytes) (relays : List Bytes)
  | otherKind
deriving DecidableEq

namespace netstr

/-- ASCII `"npub"`. -/
def npubBytes : Bytes := [110, 112, 117, 98]

/-- ASCII `"nprofile"`. -/
def nprofileBytes : Bytes := [110, 112, 114, 111, 102, 105, 108, 101]

/-- `NostrConnection.parseDestinationDomain` (source `netstr/conn.go`
lines 299–343): `protocol.Parse` the destination; IP or foreign-TLD
destinations fall back to `(targetPublicKey, defaultRelays)`; a `.nostr`
domain yields the base32-decoded relay labels (labels that fail to decode
are skipped) and the base32-decoded, schnorr-parsed public key, returned
as its hex serialization without the parity prefix (hex strings are the
bytes they denote in this model). -/
def parseDestinationDomain (nc : NostrConnection) : Option (Bytes × List Bytes) :=
  match protocol.Parse nc.dst with
  | none => none
  | some url =>
    if url.IsDomain = false then
      if netParseIP url.Name then some (nc.targetPublicKey, nc.defaultRelays)
      else none
    else if url.TLD ≠ protocol.nostrBytes then
      some (nc.targetPublicKey, nc.defaultRelays)
    else
      let subdomains := (url.SubName.splitOn 46).filterMap
        (fun subdomain => base32HexDecodeNoPad (strToUpper subdomain))
      match base32HexDecodeNoPad (strToUpper url.Name) with
      | none => none
      | some decodedPubKey =>
        match schnorrParsePubKey decodedPubKey with
        | none => none
        | some pk => some ((serializeCompressed pk).drop 1, subdomains)

/-- `NostrConnection.parseDestination` (source `netstr/conn.go`):
`npub`/`nprofile` tokens are decoded with `nip19.Decode` (the library
decoder is an explicit argument); other destinations go through
`parseDestinationDomain`. -/
def parseDestination (nip19Decode : Bytes → Option Nip19Decoded)
    (nc : NostrConnection) : Option (Bytes × List Bytes) :=
  if npubBytes.isPrefixOf nc.dst ∨ nprofileBytes.isPrefixOf nc.dst then
    match nip19Decode nc.dst with
    | none => none
    | some (.npub pk) => some (pk, [])
    | some (.nprofile pk relays) => some (pk, relays)
    | some .otherKind => some ([], [])
  else parseDestinationDomain nc

/-- A `nostr.Filter` as the repository builds it. -/
structure Filter where
  kinds : List Nat
  authors : List Bytes
  tagPValues : List Bytes
  sinceSet : Bool
deriving DecidableEq

/-- `NostrConnection.createSignedEvent` (source `netstr/conn.go` lines
203–247): build and sign the frame-carrying event; skip the bookkeeping
when the event id was already written; on the first write with the `sub`
flag, clear the flag and open the response subscription, whose filter is
returned. -/
def createSignedEvent (nc : NostrConnection) (signer : protocol.EventSigner) (now : Nat)
    (b : Bytes) (publicKey : Bytes) :
    protocol.NostrEvent × NostrConnection × Option Filter :=
  let opts := [protocol.WithUUID nc.uuid, protocol.WithType protocol.MessageTypeSocks5,
    protocol.WithDestination nc.dst, protocol.WithData b]
  let signedEvent := signer.CreateSignedEvent now publicKey protocol.KindEphemeralEvent
    [(protocol.tagP, publicKey)] opts
  if signedEvent.id ∈ nc.writeIDs then (signedEvent, nc, none)
  else
    let nc1 := { nc with writeIDs := nc.writeIDs ++ [signedEvent.id] }
    if nc1.sub then
      ({ signedEvent with }, { nc1 with sub := false },
        some { kinds := [protocol.KindEphemeralEvent], authors := [publicKey],
               tagPValues := [signedEvent.pubkey], sinceSet := true })
    else (signedEvent, nc1, none)

/-- The trace of relay-pool calls a publish loop performs: a successful
`EnsureRelay` and an accepted `Publish`. -/
inductive RelayOp where
  | ensured (relay : Bytes)
  | published (relay : Bytes) (ev : protocol.NostrEvent)
deriving DecidableEq

/-- `NostrConnection.publishEventToRelays` (source `netstr/conn.go` lines
249–262): for each relay in order, `EnsureRelay` then `Publish`,
returning the first error and stopping there.  The outcomes of the two
external calls are the `ensure`/`publish` arguments; the performed calls
are returned alongside. -/
def publishEventToRelays (ensure : Bytes → Bool)
    (publish : Bytes → protocol.NostrEvent → Bool) (ev : protocol.NostrEvent) :
    List Bytes → Except String Unit × List RelayOp
  | [] => (.ok (), [])
  | responseRelay :: rest =>
    if ensure responseRelay = false then (.error "could not ensure relay", [])
    else if publish responseRelay ev = false then
      (.error "could not publish event to relay", [.ensured responseRelay])
    else
      let tail := publishEventToRelays ensure publish ev rest
      (tail.1, .ensured responseRelay :: .published responseRelay ev :: tail.2)

/-- The environment of a write: the context state, the clock, and the
outcomes of the nip19, `EnsureRelay` and `Publish` library calls. -/
structure WriteEnv where
  ctxErr : Bool
  now : Nat
  nip19Decode : Bytes → Option Nip19Decoded
  ensure : Bytes → Bool
  publish : Bytes → protocol.NostrEvent → Bool

/-- `NostrConnection.handleNostrWrite` (source `netstr/conn.go` lines
175–201): fail on a cancelled context, resolve the destination, build
and sign the event, publish to every resolved relay, record the sent
bytes, and return the full buffer length on success. -/
def handleNostrWrite (env : WriteEnv) (nc : NostrConnection) (buffer : Bytes) :
    Except String Nat × NostrConnection × List RelayOp :=
  if env.ctxErr then (.error "context canceled", nc, [])
  else
    match parseDestination env.nip19Decode nc with
    | none => (.error "could not parse destination", nc, [])
    | some (publicKey, relays) =>
      let signer := protocol.NewEventSigner nc.privateKey
      let created := createSignedEvent nc signer env.now buffer publicKey
      let pub := publishEventToRelays env.ensure env.publish created.1 relays
      match pub.1 with
      | .error e => (.error ("could not publish event to relays: " ++ e), created.2.1, pub.2)
      | .ok _ =>
        (.ok buffer.length,
          { created.2.1 with sentBytes := created.2.1.sentBytes ++ [buffer] }, pub.2)

end netstr

/-! ## exit/exit.go, exit/nostr.go, exit/https.go — the exit node

The per-id `MutexMap` (source `exit/mutex.go`) serializes the handlers
for one session id; the embedding treats each locked handler body as one
atomic step on the exit state. -/

namespace exit

/-- `config.ExitConfig` (the fields the embedded code reads). -/
structure ExitConfig where
  NostrRelays : List Bytes
  NostrPrivateKey : Bytes
  BackendHost : Bytes
  HttpsPort : Nat
  HttpsTarget : Bytes
  Public : Bool
deriving DecidableEq

/-- `exit.Exit` (source `exit/exit.go`): the fields the embedded handlers
read and write.  The `xsync.MapOf` connection map is an association list
with newest-first lookup. -/
structure Exit where
  config : ExitConfig
  publicKey : Bytes
  nprofile : Bytes
  nostrConnectionMap : List (Nat × netstr.NostrConnection)
deriving DecidableEq

/-- `nostrConnectionMap.Load`. -/
def mapLoad (m : List (Nat × netstr.NostrConnection)) (k : Nat) :
    Option netstr.NostrConnection :=
  (m.find? (fun p => p.1 = k)).map Prod.snd

/-- `nostrConnectionMap.Store` (overwrites any previous entry). -/
def mapStore (m : List (Nat × netstr.NostrConnection)) (k : Nat)
    (v : netstr.NostrConnection) : List (Nat × netstr.NostrConnection) :=
  (k, v) :: m

/-- The externally observable actions of the exit handlers. -/
inductive ExitEffect where
  | dialBackendAttempt (dest : Bytes)
  | dialEntryAttempt (addr : Bytes)
  | proxyStarted
  | delivered (key : Nat) (msg : IncomingEvent)
  | publishedEv (relay : Bytes) (kind : Nat)
  | fileWrite (path : Bytes)
deriving DecidableEq

/-- Outcomes of the external calls `Exit.handleConnect` makes:
`nip19.EncodeProfile` and `net.Dial`. -/
structure ConnectEnv where
  encodeProfile : Bytes → List Bytes → Option Bytes
  dial : Bytes → Option Nat

/-- `Exit.handleConnect` (source `exit/exit.go` lines 272–300), the body
under `mutexMap.Lock(key)`: encode the reply profile, build the reply
`NostrConnection`, dial the backend unconditionally, and on success store
the fresh connection at the session key and spawn the two proxy loops. -/
def handleConnect (env : ConnectEnv) (e : Exit) (msg : IncomingEvent)
    (protocolMessage : protocol.Message) : Exit × List ExitEffect :=
  match env.encodeProfile msg.pubkey [msg.relayURL] with
  | none => (e, [])
  | some receiver =>
    let connection := netstr.NewConnection
      [netstr.WithPrivateKey e.config.NostrPrivateKey, netstr.WithDst receiver,
        netstr.WithUUID protocolMessage.key]
    match env.dial protocolMessage.destination with
    | none => (e, [.dialBackendAttempt protocolMessage.destination])
    | some _ =>
      let stored := mapStore e.nostrConnectionMap protocolMessage.key connection
      ({ e with nostrConnectionMap := stored },
        [.dialBackendAttempt protocolMessage.destination, .proxyStarted, .proxyStarted])

/-- Outcomes of the external calls `Exit.handleConnectReverse` makes. -/
structure ConnectReverseEnv where
  dialEntry : Bytes → Bool
  writeOk : Bool
  readByte : Option Nat
  dialBackend : Bytes → Bool

/-- `Exit.handleConnectReverse` (source `exit/exit.go` lines 302–333),
the body under the per-id lock: dial the entry's public address, send the
session id, await the one-byte ACK `0x01`, dial the backend, splice. -/
def handleConnectReverse (env : ConnectReverseEnv)
    (protocolMessage : protocol.Message) : List ExitEffect :=
  if env.dialEntry protocolMessage.entryPublicAddress = false then
    [.dialEntryAttempt protocolMessage.entryPublicAddress]
  else if env.writeOk = false then
    [.dialEntryAttempt protocolMessage.entryPublicAddress]
  else
    match env.readByte with
    | none => [.dialEntryAttempt protocolMessage.entryPublicAddress]
    | some b =>
      if b ≠ 1 then [.dialEntryAttempt protocolMessage.entryPublicAddress]
      else if env.dialBackend protocolMessage.destination = false then
        [.dialEntryAttempt protocolMessage.entryPublicAddress,
          .dialBackendAttempt protocolMessage.destination]
      else
        [.dialEntryAttempt protocolMessage.entryPublicAddress,
          .dialBackendAttempt protocolMessage.destination, .proxyStarted, .proxyStarted]

/-- `Exit.handleSocks5ProxyMessage` (source `exit/exit.go` lines
341–352), the body under the per-id lock: look the session key up in the
connection map; deliver the raw event to that connection's subscription
channel, or silently drop when the session is unknown. -/
def handleSocks5ProxyMessage (e : Exit) (msg : IncomingEvent)
    (protocolMessage : protocol.Message) : List ExitEffect :=
  match mapLoad e.nostrConnectionMap protocolMessage.key with
  | none => []
  | some _ => [.delivered protocolMessage.key msg]

/-- The outcomes `Exit.processMessage` hands to its handlers. -/
structure ProcessEnv where
  connect : ConnectEnv
  reverse : ConnectReverseEnv

/-- `Exit.processMessage` (source `exit/exit.go` lines 234–263): derive
the nip04 shared secret from the sender key, decrypt (dropping the event
on failure), unmarshal (dropping on failure), parse the destination
(dropping on failure), rewrite `.nostr` destinations to the configured
backend host, and route on the message type.  The function returns no
error in the source; failures leave the exit unchanged with no
effects. -/
def processMessage (env : ProcessEnv) (e : Exit) (msg : IncomingEvent) :
    Exit × List ExitEffect :=
  let sharedKey := nip04ComputeSharedSecret msg.pubkey e.config.NostrPrivateKey
  match nip04Decrypt sharedKey msg.content with
  | none => (e, [])
  | some decodedMessage =>
    match protocol.UnmarshalJSON decodedMessage with
    | none => (e, [])
    | some protocolMessage =>
      match protocol.Parse protocolMessage.destination with
      | none => (e, [])
      | some destination =>
        let protocolMessage :=
          if destination.TLD = protocol.nostrBytes then
            { protocolMessage with destination := e.config.BackendHost }
          else protocolMessage
        if protocolMessage.type = protocol.MessageConnect then
          handleConnect env.connect e msg protocolMessage
        else if protocolMessage.type = protocol.MessageConnectReverse then
          (e, handleConnectReverse env.reverse protocolMessage)
        else if protocolMessage.type = protocol.MessageTypeSocks5 then
          (e, handleSocks5ProxyMessage e msg protocolMessage)
        else (e, [])

/-- `Exit.handleSubscription`'s filter (source `exit/exit.go` lines
201–212): kinds `[KindEphemeralEvent]`, `since` now, `p` tag the exit's
public key. -/
def exitSubscriptionFilter (pubKey : Bytes) : netstr.Filter :=
  { kinds := [protocol.KindEphemeralEvent], authors := [],
    tagPValues := [pubKey], sinceSet := true }

/-- `Exit.announceExitNode` (source `exit/nostr.go` lines 19–50): a
non-public exit yields `errNoPublicKey`; otherwise the announcement loop
is spawned asynchronously (its publishes are not part of the return
value) and `nil` is returned. -/
def announceExitNode (e : Exit) : Except String Unit :=
  if e.config.Public = false then .error "no public key found" else .ok ()

/-- Go's decimal rendering of a number (for `fmt.Sprintf(":%d", port)`). -/
def decDigits (n : Nat) : Bytes := (Nat.toDigits 10 n).map Char.toNat

/-- Outcomes of the external calls `exit.NewExit` makes. -/
structure NewExitEnv where
  generatedKey : Bytes
  getPublicKeyOk : Bool
  encodeProfileOutcome : Option Bytes
  setSubscriptionsOk : Bool

/-- `exit.NewExit` (source `exit/exit.go` lines 58–131): generate a key
when unset, derive the public key and profile (any error panics), start
the optional HTTPS proxy, ensure the relays (failures only logged),
compute the domain, set subscriptions and announce — a panic on any
error, modelled as `Except.error`. -/
def NewExit (env : NewExitEnv) (cfg0 : ExitConfig) : Except String Exit :=
  let cfg1 := if cfg0.NostrPrivateKey = [] then
      { cfg0 with NostrPrivateKey := env.generatedKey }
    else cfg0
  if env.getPublicKeyOk = false then .error "panic: could not get public key"
  else
    match env.encodeProfileOutcome with
    | none => .error "panic: could not encode profile"
    | some profile =>
      let cfg2 := if cfg1.HttpsPort ≠ 0 then
          { cfg1 with BackendHost := 58 :: decDigits cfg1.HttpsPort }
        else cfg1
      let e : Exit :=
        { config := cfg2
          publicKey := pubOf cfg2.NostrPrivateKey
          nprofile := profile
          nostrConnectionMap := [] }
      if env.setSubscriptionsOk = false then .error "panic: could not set subscriptions"
      else
        match announceExitNode e with
        | .error msg => .error ("panic: " ++ msg)
        | .ok _ => .ok e

/-- `exit.GetPublicKeyBase32` (source `exit/exit.go` lines 169–176):
hex-decode the private key (identity of the model), derive the public
key, base32-encode its x-only serialization. -/
def GetPublicKeyBase32 (sk : Bytes) : Bytes := base32HexEncodeNoPad (pubOf sk)

/-- `Exit.getDomain` (source `exit/exit.go` lines 138–156): join the
base32-encoded relay URLs with dots, append the base32-encoded public
key and the `nostr` TLD, and lowercase. -/
def getDomain (cfg : ExitConfig) : Bytes :=
  let domain := cfg.NostrRelays.foldl
    (fun domain relayUrl =>
      if domain = [] then base32HexEncodeNoPad relayUrl
      else domain ++ 46 :: base32HexEncodeNoPad relayUrl) []
  let decoded := GetPublicKeyBase32 cfg.NostrPrivateKey
  strToLower (domain ++ 46 :: decoded ++ 46 :: protocol.nostrBytes)

/-- Per-relay outcomes of a publish loop on the exit. -/
structure StoreEnv where
  ensure : Bytes → Bool
  publish : Bytes → Bool

/-- The publish loop shared by `storeCertificate` and `storePrivateKey`
(source `exit/https.go`): `EnsureRelay` then `Publish` per configured
relay, stopping at the first error. -/
def storePublishLoop (env : StoreEnv) (kind : Nat) :
    List Bytes → Except String Unit × List ExitEffect
  | [] => (.ok (), [])
  | responseRelay :: rest =>
    if env.ensure responseRelay = false then (.error "failed to ensure relay", [])
    else if env.publish responseRelay = false then
      (.error "failed to publish event", [])
    else
      let tail := storePublishLoop env kind rest
      (tail.1, .publishedEv responseRelay kind :: tail.2)

/-- `nostr.KindTextNote` (the certificate event kind of
`storeCertificate`). -/
def KindTextNote : Nat := 1

/-- `nostr.KindEncryptedDirectMessage` (the sealed-key event kind of
`storePrivateKey`). -/
def KindEncryptedDirectMessage : Nat := 4

/-- `Exit.storeCertificate` (source `exit/https.go` lines 188–214):
build and sign a `KindTextNote` event carrying the certificate PEM with
a `p` tag, and publish it to every configured relay. -/
def storeCertificate (env : StoreEnv) (e : Exit) (certPEM : Bytes) (now : Nat) :
    Except String Unit × List ExitEffect :=
  let event := protocol.signEvent
    { pubkey := e.publicKey, createdAt := now, kind := KindTextNote,
      tags := [(protocol.tagP, e.nprofile)], content := certPEM, id := 0, signed := false }
  let _ := event
  storePublishLoop env KindTextNote e.config.NostrRelays

/-- `Exit.storePrivateKey` (source `exit/https.go` lines 164–187): sign
a `KindEncryptedDirectMessage` event carrying the key PEM, encrypted to
the exit's own key, and publish it to every configured relay. -/
def storePrivateKey (env : StoreEnv) (e : Exit) (keyPEM : Bytes) (now : Nat) :
    Except String Unit × List ExitEffect :=
  let signer := protocol.NewEventSigner e.config.NostrPrivateKey
  let event := signer.CreateSignedEvent now e.publicKey KindEncryptedDirectMessage
    [(protocol.tagP, e.nprofile)] [protocol.WithData keyPEM]
  let _ := event
  storePublishLoop env KindEncryptedDirectMessage e.config.NostrRelays

/-- Outcomes of the external calls `createAndStoreCertificateData` makes:
the generated PEM blocks and the result of `os.WriteFile`. -/
structure CertEnv where
  certPEM : Bytes
  keyPEM : Bytes
  writeFileOk : Bool
  store : StoreEnv
  now : Nat

/-- ASCII `".key"`. -/
def dotKeySuffixBytes : Bytes := [46, 107, 101, 121]

/-- `Exit.createAndStoreCertificateData` (source `exit/https.go` lines
125–162): generate the RSA key and self-signed certificate (library
calls whose PEM outputs are `env.certPEM`/`env.keyPEM`), write the key
PEM to the local file `fmt.Sprintf("%s.key", e.nprofile)`, then publish
the certificate and the sealed private key to the relays. -/
def createAndStoreCertificateData (env : CertEnv) (e : Exit) :
    Except String Unit × List ExitEffect :=
  let writeEffect := ExitEffect.fileWrite (e.nprofile ++ dotKeySuffixBytes)
  if env.writeFileOk = false then (.error "could not write key file", [writeEffect])
  else
    let certRes := storeCertificate env.store e env.certPEM env.now
    match certRes.1 with
    | .error msg => (.error msg, writeEffect :: certRes.2)
    | .ok _ =>
      let keyRes := storePrivateKey env.store e env.keyPEM env.now
      (keyRes.1, writeEffect :: certRes.2 ++ keyRes.2)

end exit

/-! ## Lemmas for the domain round trip -/

/-- The byte classes a generated domain label is made of: ASCII digits
and lowercase letters. -/
def charOK (c : Nat) : Prop := (48 ≤ c ∧ c ≤ 57) ∨ (97 ≤ c ∧ c ≤ 122)

instance (c : Nat) : Decidable (charOK c) :=
  inferInstanceAs (Decidable ((48 ≤ c ∧ c ≤ 57) ∨ (97 ≤ c ∧ c ≤ 122)))

/-- The byte classes of the base32 extended-hex alphabet. -/
def b32Char (c : Nat) : Prop := (48 ≤ c ∧ c ≤ 57) ∨ (65 ≤ c ∧ c ≤ 86)

theorem dropWhile_eq_self_of {p : Nat → Bool} {l : Bytes}
    (h : ∀ c ∈ l, p c = false) : l.dropWhile p = l := by
  cases l with
  | nil => rfl
  | cons x xs => simp [List.dropWhile_cons, h x (by simp)]

theorem trimSpace_id (l : Bytes) (h : ∀ c ∈ l, isSpaceByte c = false) :
    trimSpace l = l := by
  unfold trimSpace
  rw [dropWhile_eq_self_of h, dropWhile_eq_self_of (fun c hc => h c (by simpa using hc)),
    List.reverse_reverse]

theorem takeWhile_eq_self_of {p : Nat → Bool} :
    ∀ {l : Bytes}, (∀ c ∈ l, p c = true) → l.takeWhile p = l := by
  intro l
  induction l with
  | nil => intro _; rfl
  | cons x xs ih =>
    intro h
    simp [List.takeWhile_cons, h x (by simp), ih (fun c hc => h c (by simp [hc]))]

theorem containsSeq_eq_false_of_missing (pat : Bytes) (b : Nat) (hb : b ∈ pat) :
    ∀ (s : Bytes), (∀ c ∈ s, c ≠ b) → containsSeq pat s = false := by
  intro s
  induction s with
  | nil =>
    intro _
    have hne : pat ≠ [] := by rintro rfl; simp at hb
    simp only [containsSeq, indexOfSeq]
    rw [if_neg]
    · rfl
    · intro hpre
      exact hne (List.prefix_nil.mp (List.isPrefixOf_iff_prefix.mp hpre))
  | cons c rest ih =>
    intro h
    simp only [containsSeq, indexOfSeq]
    rw [if_neg]
    · have := ih (fun x hx => h x (by simp [hx]))
      simp only [containsSeq] at this
      cases hio : indexOfSeq pat rest with
      | none => simp [hio]
      | some v => rw [hio] at this; simp at this
    · intro hpre
      have hsub := (List.isPrefixOf_iff_prefix.mp hpre).subset hb
      exact h b hsub rfl

theorem strToLower_id (l : Bytes) (h : ∀ c ∈ l, ¬(65 ≤ c ∧ c ≤ 90)) :
    strToLower l = l := by
  unfold strToLower
  rw [List.map_congr_left, List.map_id]
  intro c hc
  simp only [toLowerByte, if_neg (h c hc), id_eq]

theorem toUpper_toLower (c : Nat) (h : b32Char c) :
    toUpperByte (toLowerByte c) = c := by
  rcases h with ⟨h1, h2⟩ | ⟨h1, h2⟩
  · unfold toLowerByte
    rw [if_neg (by omega)]
    unfold toUpperByte
    rw [if_neg (by omega)]
  · unfold toLowerByte
    rw [if_pos (by omega)]
    unfold toUpperByte
    rw [if_pos (by omega)]
    omega

theorem b32EncByte_range (v : Nat) (h : v < 32) : b32Char (b32EncByte v) := by
  unfold b32EncByte b32Char
  by_cases h10 : v < 10
  · rw [if_pos h10]; omega
  · rw [if_neg h10]; omega

theorem chunkListF_length_le {α : Type} (n : Nat) :
    ∀ (f : Nat) (l : List α), ∀ b ∈ chunkListF f n l, b.length ≤ n := by
  intro f
  induction f with
  | zero => intro l b hb; simp [chunkListF] at hb
  | succ f ih =>
    intro l b hb
    cases l with
    | nil => simp [chunkListF] at hb
    | cons x xs =>
      rcases List.mem_cons.mp hb with h1 | h2
      · rw [h1, List.length_take]
        omega
      · exact ih _ b h2

theorem base32_chars (bs : Bytes) : ∀ c ∈ base32HexEncodeNoPad bs, b32Char c := by
  intro c hc
  unfold base32HexEncodeNoPad at hc
  rcases List.mem_map.mp hc with ⟨g, hg, rfl⟩
  apply b32EncByte_range
  have hlen : g.length ≤ 5 := chunkListF_length_le 5 _ _ g hg
  calc bitsToNat g < 2 ^ g.length := bitsToNat_lt g
    _ ≤ 2 ^ 5 := Nat.pow_le_pow_right (by norm_num) hlen
    _ = 32 := by norm_num

theorem charOK_toLower_b32 (c : Nat) (h : b32Char c) : charOK (toLowerByte c) := by
  rcases h with ⟨h1, h2⟩ | ⟨h1, h2⟩
  · unfold toLowerByte charOK
    rw [if_neg (by omega)]
    omega
  · unfold toLowerByte charOK
    rw [if_pos (by omega)]
    omega

theorem natToBytesBE_length (w v : Nat) : (natToBytesBE w v).length = w := by
  induction w generalizing v with
  | zero => rfl
  | succ w ih => simp [natToBytesBE, ih]

theorem natToBytesBE_bytes_lt (w v : Nat) : ∀ b ∈ natToBytesBE w v, b < 256 := by
  induction w generalizing v with
  | zero => intro b hb; simp [natToBytesBE] at hb
  | succ w ih =>
    intro b hb
    simp only [natToBytesBE, List.mem_append, List.mem_singleton] at hb
    rcases hb with h1 | h2
    · exact ih _ b h1
    · rw [h2]; exact Nat.mod_lt _ (by norm_num)

theorem base32_length (bs : Bytes) :
    (base32HexEncodeNoPad bs).length = (8 * bs.length + 4) / 5 := by
  set bits := (bs.map (natToBits 8)).flatten with hbits
  have hbitslen : bits.length = 8 * bs.length := flatten_map_natToBits_length 8 bs
  set pad := (5 - bits.length % 5) % 5 with hpad
  set padded := bits ++ List.replicate pad false with hpadded
  have hpaddedlen : padded.length = bits.length + pad := by simp [hpadded]
  have hdvd5 : (5 : Nat) ∣ padded.length := by
    rw [hpaddedlen]
    have := hpad
    omega
  have hblen : ∀ b ∈ chunkList 5 padded, b.length = 5 :=
    chunkList_length_of_dvd 4 padded.length padded le_rfl hdvd5
  have henc : base32HexEncodeNoPad bs
      = (chunkList 5 padded).map (fun g => b32EncByte (bitsToNat g)) := by
    simp only [base32HexEncodeNoPad]
  have hflat : (chunkList 5 padded).flatten = padded :=
    chunkList_flatten 4 padded.length padded le_rfl
  have htot : 5 * (chunkList 5 padded).length = padded.length := by
    have hfl := flatten_length_uniform 5 (chunkList 5 padded) hblen
    rw [hflat] at hfl
    omega
  rw [henc, List.length_map]
  have hpadlt : pad < 5 := by rw [hpad]; omega
  omega

/-- Whether a label contains a lowercase letter. -/
def labelHasAlpha (label : Bytes) : Bool :=
  label.any (fun c => decide (97 ≤ c ∧ c ≤ 122))

theorem intercalate_cons₂ {α : Type} (s : List α) (a b : List α) (t : List (List α)) :
    List.intercalate s (a :: b :: t) = a ++ s ++ List.intercalate s (b :: t) := by
  simp [List.intercalate, List.intersperse_cons_cons]

theorem mem_intercalate_46 :
    ∀ (ls : List Bytes) (c : Nat), c ∈ List.intercalate [46] ls →
      c = 46 ∨ ∃ l ∈ ls, c ∈ l := by
  intro ls
  induction ls with
  | nil => intro c hc; simp [List.intercalate] at hc
  | cons a t ih =>
    intro c hc
    cases t with
    | nil =>
      simp only [List.intercalate, List.intersperse_singleton, List.flatten,
        List.append_nil] at hc
      exact Or.inr ⟨a, by simp, hc⟩
    | cons b t2 =>
      rw [intercalate_cons₂] at hc
      rcases List.mem_append.mp hc with h1 | h2
      · rcases List.mem_append.mp h1 with h3 | h4
        · exact Or.inr ⟨a, by simp, h3⟩
        · left; simpa using h4
      · rcases ih c h2 with h5 | ⟨l, hl, hcl⟩
        · exact Or.inl h5
        · exact Or.inr ⟨l, by simp [hl], hcl⟩

theorem getLastD_mem {α : Type} : ∀ (l : List α) (d : α), l ≠ [] → l.getLastD d ∈ l := by
  intro l
  induction l with
  | nil => intro d h; exact absurd rfl h
  | cons x xs ih =>
    intro d _
    cases xs with
    | nil => simp
    | cons y ys =>
      rw [List.getLastD_cons]
      exact List.mem_cons_of_mem x (ih x (by simp))

/-- Walking one dot-free label through the `IsDomainName` loop. -/
theorem isDomainLoop_label (label : Bytes) (h : ∀ c ∈ label, charOK c) :
    ∀ (tail : Bytes) (last : Nat) (nn : Bool) (pl : Nat),
      protocol.isDomainLoop (label ++ tail) last nn pl
        = protocol.isDomainLoop tail (label.getLastD last)
            (nn || labelHasAlpha label) (pl + label.length) := by
  induction label with
  | nil => intro tail last nn pl; simp [labelHasAlpha]
  | cons c rest ih =>
    intro tail last nn pl
    rcases h c (by simp) with ⟨h1, h2⟩ | ⟨h1, h2⟩
    · have hstep : protocol.isDomainLoop (c :: (rest ++ tail)) last nn pl
          = protocol.isDomainLoop (rest ++ tail) c nn (pl + 1) := by
        simp only [protocol.isDomainLoop]
        rw [if_neg (by omega), if_pos (by omega)]
      rw [List.cons_append, hstep, ih (fun x hx => h x (by simp [hx])) tail c nn (pl + 1)]
      have hha : labelHasAlpha (c :: rest) = labelHasAlpha rest := by
        simp only [labelHasAlpha, List.any_cons]
        rw [decide_eq_false (by omega)]
        simp
      rw [List.getLastD_cons, hha]
      congr 1
      simp only [List.length_cons]
      omega
    · have hstep : protocol.isDomainLoop (c :: (rest ++ tail)) last nn pl
          = protocol.isDomainLoop (rest ++ tail) c true (pl + 1) := by
        simp only [protocol.isDomainLoop]
        rw [if_pos (Or.inl ⟨h1, h2⟩)]
      rw [List.cons_append, hstep, ih (fun x hx => h x (by simp [hx])) tail c true (pl + 1)]
      have hha : labelHasAlpha (c :: rest) = true := by
        simp only [labelHasAlpha, List.any_cons]
        rw [decide_eq_true (by omega)]
        simp
      rw [List.getLastD_cons, hha]
      have : (true || labelHasAlpha rest) = (nn || true) := by
        cases nn <;> cases labelHasAlpha rest <;> rfl
      rw [this]
      congr 1
      simp only [List.length_cons]
      omega

/-- Running the `IsDomainName` loop over a dot-joined list of well-formed
labels accepts, reporting whether any label holds a letter. -/
theorem isDomainLoop_labels :
    ∀ (ls : List Bytes), ls ≠ [] →
      (∀ l ∈ ls, l ≠ [] ∧ l.length ≤ 63 ∧ ∀ c ∈ l, charOK c) →
      ∀ nn : Bool,
        protocol.isDomainLoop (List.intercalate [46] ls) 46 nn 0
          = (nn || ls.any labelHasAlpha) := by
  intro ls
  induction ls with
  | nil => intro h; exact absurd rfl h
  | cons l t ih =>
    intro _ hgood nn
    obtain ⟨hlne, hllen, hlchars⟩ := hgood l (by simp)
    have hlastm := getLastD_mem l 46 hlne
    have hlast : ¬(l.getLastD 46 = 46 ∨ l.getLastD 46 = 45) := by
      rcases hlchars _ hlastm with ⟨a1, a2⟩ | ⟨a1, a2⟩ <;> omega
    have hlen1 : 0 < l.length := List.length_pos.mpr hlne
    cases t with
    | nil =>
      have hsing : List.intercalate [46] [l] = l := by
        simp [List.intercalate]
      rw [hsing]
      have hw := isDomainLoop_label l hlchars [] 46 nn 0
      rw [List.append_nil] at hw
      rw [hw]
      simp only [protocol.isDomainLoop]
      rw [if_neg (by omega)]
      simp
    | cons l2 t2 =>
      rw [intercalate_cons₂, List.append_assoc, List.singleton_append]
      rw [isDomainLoop_label l hlchars (46 :: List.intercalate [46] (l2 :: t2)) 46 nn 0]
      have hdot :
          protocol.isDomainLoop (46 :: List.intercalate [46] (l2 :: t2))
              (l.getLastD 46) (nn || labelHasAlpha l) (0 + l.length)
            = protocol.isDomainLoop (List.intercalate [46] (l2 :: t2)) 46
                (nn || labelHasAlpha l) 0 := by
        simp only [protocol.isDomainLoop]
        rw [if_neg (by omega), if_neg (by omega), if_neg (by omega), if_pos trivial,
          if_neg hlast, if_neg (by omega)]
      rw [hdot, ih (by simp) (fun x hx => hgood x (by simp [hx])) (nn || labelHasAlpha l)]
      simp [Bool.or_assoc]

theorem intercalate_46_length_pos (ls : List Bytes) (hne : ls ≠ [])
    (h1 : ∀ l ∈ ls, l ≠ []) : 0 < (List.intercalate [46] ls).length := by
  cases ls with
  | nil => exact absurd rfl hne
  | cons l t =>
    have hl := List.length_pos.mpr (h1 l (by simp))
    cases t with
    | nil => simpa [List.intercalate] using hl
    | cons b t2 =>
      rw [intercalate_cons₂]
      simp only [List.length_append]
      omega

/-- A dot-joined list of at least two well-formed labels, one of which
holds a letter, passes `protocol.IsDomainName`. -/
theorem IsDomainName_labels (ls : List Bytes) (h2 : 2 ≤ ls.length)
    (hgood : ∀ l ∈ ls, l ≠ [] ∧ l.length ≤ 63 ∧ ∀ c ∈ l, charOK c)
    (hlen : (List.intercalate [46] ls).length ≤ 253)
    (halpha : ls.any labelHasAlpha = true) :
    protocol.IsDomainName (List.intercalate [46] ls) = true := by
  have hne : ls ≠ [] := by
    intro h
    rw [h] at h2
    simp at h2
  have hchars : ∀ c ∈ List.intercalate [46] ls, c = 46 ∨ charOK c := by
    intro c hc
    rcases mem_intercalate_46 ls c hc with h | ⟨l, hl, hcl⟩
    · exact Or.inl h
    · exact Or.inr ((hgood l hl).2.2 c hcl)
  have h46free : ∀ l ∈ ls, 46 ∉ l := by
    intro l hl hmem
    rcases (hgood l hl).2.2 46 hmem with ⟨a, b⟩ | ⟨a, b⟩ <;> omega
  have hno1 : containsSeq [58, 47, 47] (List.intercalate [46] ls) = false := by
    apply containsSeq_eq_false_of_missing [58, 47, 47] 58 (by simp)
    intro c hc
    rcases hchars c hc with h | (⟨a, b⟩ | ⟨a, b⟩) <;> omega
  have hno2 : containsSeq [47, 47] (List.intercalate [46] ls) = false := by
    apply containsSeq_eq_false_of_missing [47, 47] 47 (by simp)
    intro c hc
    rcases hchars c hc with h | (⟨a, b⟩ | ⟨a, b⟩) <;> omega
  have hrs : protocol.RemoveScheme (List.intercalate [46] ls) = List.intercalate [46] ls := by
    simp [protocol.RemoveScheme, hno1, hno2]
  have hsplit : (List.intercalate [46] ls).splitOn 46 = ls :=
    List.splitOn_intercalate ls 46 h46free hne
  have hlpos : 0 < (List.intercalate [46] ls).length :=
    intercalate_46_length_pos ls hne (fun l hl => (hgood l hl).1)
  unfold protocol.IsDomainName
  simp only [hrs, hsplit]
  rw [if_neg (by omega), if_neg (by
    intro h
    rcases h with h | h | ⟨h, -⟩ <;> omega)]
  rw [isDomainLoop_labels ls hne hgood false]
  simpa using halpha

theorem intercalate_46_eq (a : Bytes) :
    ∀ (t : List Bytes),
      List.intercalate [46] (a :: t) = a ++ (t.map (fun x => 46 :: x)).flatten := by
  intro t
  induction t generalizing a with
  | nil => simp [List.intercalate]
  | cons b t2 ih =>
    rw [intercalate_cons₂, ih b]
    simp [List.append_assoc]

theorem intercalate_46_snoc (ls : List Bytes) (hne : ls ≠ []) (x : Bytes) :
    List.intercalate [46] (ls ++ [x]) = List.intercalate [46] ls ++ 46 :: x := by
  cases ls with
  | nil => exact absurd rfl hne
  | cons a t =>
    rw [List.cons_append, intercalate_46_eq, intercalate_46_eq]
    simp [List.append_assoc]

theorem strToLower_append (x y : Bytes) :
    strToLower (x ++ y) = strToLower x ++ strToLower y := by
  simp [strToLower]

theorem strToLower_flatten_dotmap (t : List Bytes) :
    strToLower ((t.map (fun x => 46 :: x)).flatten)
      = ((t.map strToLower).map (fun x => 46 :: x)).flatten := by
  induction t with
  | nil => rfl
  | cons y t2 ih =>
    simp only [List.map_cons, List.flatten_cons, strToLower_append, ih]
    congr 1

theorem strToLower_intercalate (ls : List Bytes) :
    strToLower (List.intercalate [46] ls) = List.intercalate [46] (ls.map strToLower) := by
  cases ls with
  | nil => rfl
  | cons a t =>
    rw [intercalate_46_eq, List.map_cons, intercalate_46_eq, strToLower_append,
      strToLower_flatten_dotmap]

theorem indexOfSeq_singleton_append (c : Nat) :
    ∀ (p : Bytes), c ∉ p → ∀ (q : Bytes),
      indexOfSeq [c] (p ++ c :: q) = some p.length := by
  intro p
  induction p with
  | nil =>
    intro _ q
    simp [indexOfSeq, List.isPrefixOf]
  | cons x xs ih =>
    intro hc q
    have hxc : c ≠ x := fun h => hc (by simp [h])
    simp only [List.cons_append, indexOfSeq, List.append_eq]
    rw [if_neg (by
      simp only [List.isPrefixOf_iff_prefix]
      intro hpre
      exact hxc (List.cons_prefix_cons.mp hpre).1)]
    rw [ih (fun h => hc (by simp [h])) q]
    simp

theorem trimSuffixL_append (a b : Bytes) : trimSuffixL (a ++ b) b = a := by
  unfold trimSuffixL
  rw [if_pos (by
    simp only [List.isSuffixOf_iff_suffix]
    exact List.suffix_append a b)]
  rw [List.length_append]
  have h : a.length + b.length - b.length = a.length := by omega
  rw [h, List.take_left]

theorem trimSuffixL_id_single (l : Bytes) (c : Nat) (h : c ∉ l) :
    trimSuffixL l [c] = l := by
  unfold trimSuffixL
  rw [if_neg]
  simp only [List.isSuffixOf_iff_suffix]
  intro hs
  exact h (hs.subset (by simp))

theorem trimLeadL_id_single (l : Bytes) (c : Nat) (h : c ∉ l) :
    trimLeadL l [c] = l := by
  unfold trimLeadL
  rw [if_neg]
  simp only [List.isPrefixOf_iff_prefix]
  intro hs
  exact h (hs.subset (by simp))

theorem netParseIP_false_of_letter (s : Bytes) (c : Nat) (hc : c ∈ s)
    (h1 : 97 ≤ c) (h2 : c ≤ 122) : netParseIP s = false := by
  have hall : s.all (fun c => (48 ≤ c && c ≤ 57) || c = 46 || c = 58) = false := by
    rw [List.all_eq_false]
    refine ⟨c, hc, ?_⟩
    simp only [Bool.or_eq_true, Bool.and_eq_true, decide_eq_true_eq, not_or, not_and]
    omega
  simp [netParseIP, hall]

theorem domainPort_last_letter (d : Bytes) (y : Bytes) (c : Nat)
    (hd : d = y ++ [c]) (h1 : 97 ≤ c) (h2 : c ≤ 122) :
    protocol.domainPort d = (d, []) := by
  have hrev : d.reverse = c :: y.reverse := by
    rw [hd]
    simp
  unfold protocol.domainPort
  rw [hrev]
  simp only [protocol.domainPortLoop]
  rw [if_neg (by omega), if_neg (by omega)]

theorem effectiveTLDPlusOne_eq (dom : Bytes) (tld name : Bytes) (rest : List Bytes)
    (h : (dom.splitOn 46).reverse = tld :: name :: rest)
    (h1 : tld ≠ []) (h2 : name ≠ []) :
    effectiveTLDPlusOne dom = some (name ++ 46 :: tld) := by
  unfold effectiveTLDPlusOne
  rw [h]
  show (if tld ≠ [] ∧ name ≠ [] then some (name ++ 46 :: tld) else none)
    = some (name ++ 46 :: tld)
  rw [if_pos ⟨h1, h2⟩]

/-- The central parse lemma: `protocol.Parse` on a dot-joined list of
well-formed labels ending in the `nostr` TLD recovers the subdomain
labels, name label and TLD. -/
theorem Parse_nostr_labels (subLabels : List Bytes) (nameLabel : Bytes)
    (hsub : subLabels ≠ [])
    (hgoodsub : ∀ l ∈ subLabels, l ≠ [] ∧ l.length ≤ 63 ∧ ∀ c ∈ l, charOK c)
    (hname : nameLabel ≠ [] ∧ nameLabel.length ≤ 63 ∧ ∀ c ∈ nameLabel, charOK c)
    (hlen :
      (List.intercalate [46] (subLabels ++ [nameLabel, protocol.nostrBytes])).length ≤ 253) :
    protocol.Parse (List.intercalate [46] (subLabels ++ [nameLabel, protocol.nostrBytes]))
      = some { SubName := List.intercalate [46] subLabels, Name := nameLabel,
               TLD := protocol.nostrBytes, Port := [], IsDomain := true } := by
  have hnostrgood : protocol.nostrBytes ≠ [] ∧
      (protocol.nostrBytes : Bytes).length ≤ 63 ∧ ∀ c ∈ protocol.nostrBytes, charOK c := by
    refine ⟨by decide, by decide, ?_⟩
    intro c hc
    simp [protocol.nostrBytes] at hc
    unfold charOK
    omega
  have hgood : ∀ l ∈ subLabels ++ [nameLabel, protocol.nostrBytes],
      l ≠ [] ∧ l.length ≤ 63 ∧ ∀ c ∈ l, charOK c := by
    intro l hl
    rcases List.mem_append.mp hl with h | h
    · exact hgoodsub l h
    · simp only [List.mem_cons, List.mem_singleton, List.not_mem_nil, or_false] at h
      rcases h with rfl | rfl
      · exact hname
      · exact hnostrgood
  have hne : subLabels ++ [nameLabel, protocol.nostrBytes] ≠ [] := by simp
  have hchars : ∀ c ∈ List.intercalate [46] (subLabels ++ [nameLabel, protocol.nostrBytes]),
      c = 46 ∨ charOK c := by
    intro c hc
    rcases mem_intercalate_46 _ c hc with h | ⟨l, hl, hcl⟩
    · exact Or.inl h
    · exact Or.inr ((hgood l hl).2.2 c hcl)
  have hcge : ∀ c ∈ List.intercalate [46] (subLabels ++ [nameLabel, protocol.nostrBytes]),
      46 ≤ c ∧ c ≤ 122 := by
    intro c hc
    rcases hchars c hc with h | (⟨a, b⟩ | ⟨a, b⟩) <;> omega
  have hlpos : 0 < (List.intercalate [46] (subLabels ++ [nameLabel, protocol.nostrBytes])).length :=
    intercalate_46_length_pos _ hne (fun l hl => (hgood l hl).1)
  have hdne : List.intercalate [46] (subLabels ++ [nameLabel, protocol.nostrBytes]) ≠ [] := by
    intro h
    rw [h] at hlpos
    simp at hlpos
  have htrim : trimSpace (List.intercalate [46] (subLabels ++ [nameLabel, protocol.nostrBytes]))
      = List.intercalate [46] (subLabels ++ [nameLabel, protocol.nostrBytes]) := by
    apply trimSpace_id
    intro c hc
    have := hcge c hc
    simp only [isSpaceByte, Bool.or_eq_false_iff, decide_eq_false_iff_not]
    omega
  have hno47 : containsSeq [47, 47]
      (List.intercalate [46] (subLabels ++ [nameLabel, protocol.nostrBytes])) = false := by
    apply containsSeq_eq_false_of_missing [47, 47] 47 (by simp)
    intro c hc
    rcases hchars c hc with h | (⟨a, b⟩ | ⟨a, b⟩) <;> omega
  have hadd : protocol.AddDefaultScheme
      (List.intercalate [46] (subLabels ++ [nameLabel, protocol.nostrBytes]))
      = 47 :: 47 :: List.intercalate [46] (subLabels ++ [nameLabel, protocol.nostrBytes]) := by
    simp [protocol.AddDefaultScheme, hno47]
  have hurl : urlParseHost
      (47 :: 47 :: List.intercalate [46] (subLabels ++ [nameLabel, protocol.nostrBytes]))
      = some (List.intercalate [46] (subLabels ++ [nameLabel, protocol.nostrBytes])) := by
    have hanyf : (47 :: 47 :: List.intercalate [46] (subLabels ++ [nameLabel, protocol.nostrBytes])).any
        (fun c => c < 32 || c = 127) = false := by
      simp only [List.any_eq_false]
      intro c hc
      simp only [List.mem_cons] at hc
      simp only [Bool.or_eq_true, decide_eq_true_eq, not_or]
      rcases hc with rfl | rfl | hc3
      · omega
      · omega
      · have := hcge c hc3
        omega
    unfold urlParseHost
    rw [if_neg (by simp [hanyf])]
    rw [if_pos (by
      simp only [List.isPrefixOf_iff_prefix]
      exact ⟨List.intercalate [46] (subLabels ++ [nameLabel, protocol.nostrBytes]), rfl⟩)]
    congr 1
    show (List.intercalate [46] (subLabels ++ [nameLabel, protocol.nostrBytes])).takeWhile _ = _
    apply takeWhile_eq_self_of
    intro c hc
    have h1 := hcge c hc
    have h2 := hchars c hc
    simp only [Bool.not_eq_eq_eq_not, Bool.not_true, Bool.or_eq_false_iff,
      decide_eq_false_iff_not]
    rcases h2 with h | (⟨a, b⟩ | ⟨a, b⟩) <;> refine ⟨⟨by omega, by omega⟩, by omega⟩
  have hlow : strToLower (List.intercalate [46] (subLabels ++ [nameLabel, protocol.nostrBytes]))
      = List.intercalate [46] (subLabels ++ [nameLabel, protocol.nostrBytes]) := by
    apply strToLower_id
    intro c hc
    rcases hchars c hc with h | (⟨a, b⟩ | ⟨a, b⟩) <;> omega
  have hsplitform : subLabels ++ [nameLabel, protocol.nostrBytes]
      = (subLabels ++ [nameLabel]) ++ [protocol.nostrBytes] := by simp
  have hd2 : List.intercalate [46] (subLabels ++ [nameLabel, protocol.nostrBytes])
      = List.intercalate [46] subLabels ++ 46 :: (nameLabel ++ 46 :: protocol.nostrBytes) := by
    rw [hsplitform, intercalate_46_snoc _ (by simp) _, intercalate_46_snoc _ hsub _]
    simp [List.append_assoc]
  have hdlast : List.intercalate [46] (subLabels ++ [nameLabel, protocol.nostrBytes])
      = (List.intercalate [46] subLabels ++ 46 :: (nameLabel ++ [46, 110, 111, 115, 116]))
        ++ [114] := by
    rw [hd2]
    simp [protocol.nostrBytes, List.append_assoc]
  have hdp : protocol.domainPort
      (List.intercalate [46] (subLabels ++ [nameLabel, protocol.nostrBytes]))
      = (List.intercalate [46] (subLabels ++ [nameLabel, protocol.nostrBytes]), []) :=
    domainPort_last_letter _ _ 114 hdlast (by norm_num) (by norm_num)
  have h93 : trimSuffixL
      (List.intercalate [46] (subLabels ++ [nameLabel, protocol.nostrBytes])) [93]
      = List.intercalate [46] (subLabels ++ [nameLabel, protocol.nostrBytes]) := by
    apply trimSuffixL_id_single
    intro hmem
    rcases hchars 93 hmem with h | (⟨a, b⟩ | ⟨a, b⟩) <;> omega
  have h91 : trimLeadL
      (List.intercalate [46] (subLabels ++ [nameLabel, protocol.nostrBytes])) [91]
      = List.intercalate [46] (subLabels ++ [nameLabel, protocol.nostrBytes]) := by
    apply trimLeadL_id_single
    intro hmem
    rcases hchars 91 hmem with h | (⟨a, b⟩ | ⟨a, b⟩) <;> omega
  have h110 : (110 : Nat) ∈ List.intercalate [46] (subLabels ++ [nameLabel, protocol.nostrBytes]) := by
    rw [hd2]
    simp [protocol.nostrBytes]
  have hip : netParseIP (List.intercalate [46] (subLabels ++ [nameLabel, protocol.nostrBytes]))
      = false :=
    netParseIP_false_of_letter _ 110 h110 (by norm_num) (by norm_num)
  have hnloc : ¬(List.intercalate [46] (subLabels ++ [nameLabel, protocol.nostrBytes])
      = protocol.localhostBytes) := by
    intro h
    have h46m : (46 : Nat) ∈ List.intercalate [46] (subLabels ++ [nameLabel, protocol.nostrBytes]) := by
      rw [hd2]
      simp
    rw [h] at h46m
    simp [protocol.localhostBytes] at h46m
  have h46free : ∀ l ∈ subLabels ++ [nameLabel, protocol.nostrBytes], 46 ∉ l := by
    intro l hl hmem
    rcases (hgood l hl).2.2 46 hmem with ⟨a, b⟩ | ⟨a, b⟩ <;> omega
  have hsplit : (List.intercalate [46] (subLabels ++ [nameLabel, protocol.nostrBytes])).splitOn 46
      = subLabels ++ [nameLabel, protocol.nostrBytes] :=
    List.splitOn_intercalate _ 46 h46free hne
  have hetld : effectiveTLDPlusOne
      (List.intercalate [46] (subLabels ++ [nameLabel, protocol.nostrBytes]))
      = some (nameLabel ++ 46 :: protocol.nostrBytes) := by
    apply effectiveTLDPlusOne_eq _ _ _ subLabels.reverse
    · rw [hsplit]
      simp
    · decide
    · exact hname.1
  have h46name : (46 : Nat) ∉ nameLabel := by
    intro hmem
    rcases hname.2.2 46 hmem with ⟨a, b⟩ | ⟨a, b⟩ <;> omega
  have hidx : indexOfSeq [46] (nameLabel ++ 46 :: protocol.nostrBytes)
      = some nameLabel.length :=
    indexOfSeq_singleton_append 46 nameLabel h46name protocol.nostrBytes
  have htake : (nameLabel ++ 46 :: protocol.nostrBytes).take nameLabel.length = nameLabel :=
    List.take_left nameLabel (46 :: protocol.nostrBytes)
  have hdrop : (nameLabel ++ 46 :: protocol.nostrBytes).drop (nameLabel.length + 1)
      = protocol.nostrBytes := by
    have hform : nameLabel ++ 46 :: protocol.nostrBytes
        = (nameLabel ++ [46]) ++ protocol.nostrBytes := by simp
    have hlen1 : (nameLabel ++ [46]).length = nameLabel.length + 1 := by simp
    rw [hform, ← hlen1, List.drop_left]
  have hrest : trimSuffixL (List.intercalate [46] (subLabels ++ [nameLabel, protocol.nostrBytes]))
      (46 :: (nameLabel ++ 46 :: protocol.nostrBytes)) = List.intercalate [46] subLabels := by
    rw [hd2]
    exact trimSuffixL_append _ _
  have hSne : List.intercalate [46] subLabels
      ≠ List.intercalate [46] (subLabels ++ [nameLabel, protocol.nostrBytes]) := by
    intro h
    have hl := congrArg List.length h
    rw [hd2] at hl
    simp only [List.length_append, List.length_cons] at hl
    omega
  have hidna : idnaToASCII (List.intercalate [46] (subLabels ++ [nameLabel, protocol.nostrBytes]))
      = some (List.intercalate [46] (subLabels ++ [nameLabel, protocol.nostrBytes])) := by
    unfold idnaToASCII
    rw [if_pos]
    rw [List.all_eq_true]
    intro c hc
    have := hcge c hc
    simp only [decide_eq_true_eq]
    omega
  have halpha : (subLabels ++ [nameLabel, protocol.nostrBytes]).any labelHasAlpha = true := by
    rw [List.any_append]
    have hn : labelHasAlpha protocol.nostrBytes = true := by decide
    simp [List.any_cons, hn]
  have hdomain : protocol.IsDomainName
      (List.intercalate [46] (subLabels ++ [nameLabel, protocol.nostrBytes])) = true := by
    apply IsDomainName_labels _ (by simp) hgood hlen halpha
  unfold protocol.Parse
  simp only [htrim]
  rw [if_neg hdne, hadd, hurl]
  simp only [hlow, hdp]
  rw [if_neg hdne]
  simp only [h93, h91, hip]
  rw [if_neg (by simp)]
  rw [if_neg hnloc]
  simp only [hetld, hidx, Option.getD_some, htake, hdrop, hrest, hidna]
  rw [if_pos hSne, hdomain]

theorem strToUpper_strToLower_b32 (s : Bytes) (h : ∀ c ∈ s, b32Char c) :
    strToUpper (strToLower s) = s := by
  unfold strToUpper strToLower
  rw [List.map_map, List.map_congr_left, List.map_id]
  intro c hc
  simpa using toUpper_toLower c (h c hc)

theorem decode_lower_enc (r : Bytes) (h : ∀ b ∈ r, b < 256) :
    base32HexDecodeNoPad (strToUpper (strToLower (base32HexEncodeNoPad r))) = some r := by
  rw [strToUpper_strToLower_b32 _ (base32_chars r), base32_roundTrip r h]

theorem filterMap_eq_map_of_some {α β : Type} (f : α → Option β) (g : α → β) :
    ∀ (l : List α), (∀ x ∈ l, f x = some (g x)) → l.filterMap f = l.map g := by
  intro l
  induction l with
  | nil => intro _; rfl
  | cons x xs ih =>
    intro h
    simp [List.filterMap_cons, h x (by simp), ih (fun y hy => h y (by simp [hy]))]

theorem intercalate_46_cons (a : Bytes) (T : List Bytes) (h : T ≠ []) :
    List.intercalate [46] (a :: T) = a ++ 46 :: List.intercalate [46] T := by
  cases T with
  | nil => exact absurd rfl h
  | cons b t2 =>
    rw [intercalate_cons₂]
    simp [List.append_assoc]

/-- The shape of the domain `Exit.getDomain` produces: the lowercased
base32 relay labels, the lowercased base32 public-key label, and the
`nostr` TLD, joined by dots. -/
theorem getDomain_eq (cfg : exit.ExitConfig) (hrel : cfg.NostrRelays ≠ [])
    (hgoodr : ∀ r ∈ cfg.NostrRelays, r ≠ []) :
    exit.getDomain cfg
      = List.intercalate [46]
          ((cfg.NostrRelays.map (fun r => strToLower (base32HexEncodeNoPad r)))
            ++ [strToLower (base32HexEncodeNoPad (pubOf cfg.NostrPrivateKey)),
                protocol.nostrBytes]) := by
  have hfold : ∀ (rs : List Bytes) (acc : Bytes), acc ≠ [] →
      rs.foldl (fun domain relayUrl =>
        if domain = [] then base32HexEncodeNoPad relayUrl
        else domain ++ 46 :: base32HexEncodeNoPad relayUrl) acc
      = acc ++ (rs.map (fun r => 46 :: base32HexEncodeNoPad r)).flatten := by
    intro rs
    induction rs with
    | nil => intro acc _; simp
    | cons r rest ih =>
      intro acc hacc
      rw [List.foldl_cons, if_neg hacc, ih _ (by simp)]
      simp [List.append_assoc]
  obtain ⟨r0, rest, hcons⟩ : ∃ r0 rest, cfg.NostrRelays = r0 :: rest := by
    cases hc : cfg.NostrRelays with
    | nil => exact absurd hc hrel
    | cons a t => exact ⟨a, t, rfl⟩
  have hr0ne : r0 ≠ [] := hgoodr r0 (by rw [hcons]; simp)
  have henc0 : base32HexEncodeNoPad r0 ≠ [] := by
    have hp : 0 < (base32HexEncodeNoPad r0).length := by
      rw [base32_length]
      have := List.length_pos.mpr hr0ne
      omega
    exact List.length_pos.mp hp
  have hdom : cfg.NostrRelays.foldl (fun domain relayUrl =>
        if domain = [] then base32HexEncodeNoPad relayUrl
        else domain ++ 46 :: base32HexEncodeNoPad relayUrl) []
      = List.intercalate [46] (cfg.NostrRelays.map base32HexEncodeNoPad) := by
    rw [hcons, List.foldl_cons, if_pos rfl, hfold rest _ henc0, List.map_cons,
      intercalate_46_eq]
    simp only [List.map_map]
    rfl
  have hLne : cfg.NostrRelays.map base32HexEncodeNoPad ≠ [] := by
    rw [hcons]
    simp
  have hnl : strToLower protocol.nostrBytes = protocol.nostrBytes := by decide
  simp only [exit.getDomain, exit.GetPublicKeyBase32]
  rw [hdom]
  have hjoin : (List.intercalate [46] (cfg.NostrRelays.map base32HexEncodeNoPad)
        ++ 46 :: base32HexEncodeNoPad (pubOf cfg.NostrPrivateKey))
        ++ 46 :: protocol.nostrBytes
      = List.intercalate [46] ((cfg.NostrRelays.map base32HexEncodeNoPad
          ++ [base32HexEncodeNoPad (pubOf cfg.NostrPrivateKey)]) ++ [protocol.nostrBytes]) := by
    rw [intercalate_46_snoc _ (by simp [hLne]) _, intercalate_46_snoc _ hLne _]
  rw [hjoin, strToLower_intercalate]
  congr 1
  simp [List.map_append, List.map_map, Function.comp, hnl, List.append_assoc]

/-- The master destination-resolution lemma: on a domain made of
well-formed front labels, the lowercased base32 relay labels, the
lowercased base32 public-key label and the `nostr` TLD,
`parseDestinationDomain` returns the public key together with the
base32-decodable front labels followed by the relay URLs in order. -/
theorem parseDestinationDomain_labels (nc : netstr.NostrConnection)
    (front relays : List Bytes) (sk : Bytes)
    (hfront : ∀ l ∈ front, l ≠ [] ∧ l.length ≤ 63 ∧ ∀ c ∈ l, charOK c)
    (hrel : relays ≠ [])
    (hrelgood : ∀ r ∈ relays, r ≠ [] ∧ r.length ≤ 39 ∧ ∀ b ∈ r, b < 256)
    (hdst : nc.dst = List.intercalate [46]
        ((front ++ relays.map (fun r => strToLower (base32HexEncodeNoPad r)))
          ++ [strToLower (base32HexEncodeNoPad (pubOf sk)), protocol.nostrBytes]))
    (hlen : nc.dst.length ≤ 253) :
    netstr.parseDestinationDomain nc
      = some (pubOf sk,
          front.filterMap (fun l => base32HexDecodeNoPad (strToUpper l)) ++ relays) := by
  have hlowenc : ∀ r ∈ relays,
      strToLower (base32HexEncodeNoPad r) ≠ []
      ∧ (strToLower (base32HexEncodeNoPad r)).length ≤ 63
      ∧ ∀ c ∈ strToLower (base32HexEncodeNoPad r), charOK c := by
    intro r hr
    obtain ⟨h1, h2, h3⟩ := hrelgood r hr
    have hlenr : (strToLower (base32HexEncodeNoPad r)).length = (8 * r.length + 4) / 5 := by
      simp [strToLower, base32_length]
    have hrp : 0 < r.length := List.length_pos.mpr h1
    refine ⟨?_, ?_, ?_⟩
    · intro hnil
      have h0 := congrArg List.length hnil
      rw [hlenr] at h0
      simp at h0
      omega
    · rw [hlenr]
      omega
    · intro c hc
      simp only [strToLower, List.mem_map] at hc
      obtain ⟨b, hb, rfl⟩ := hc
      exact charOK_toLower_b32 b (base32_chars r b hb)
  have hlen32 : (pubOf sk).length = 32 := natToBytesBE_length 32 _
  have hpub : strToLower (base32HexEncodeNoPad (pubOf sk)) ≠ []
      ∧ (strToLower (base32HexEncodeNoPad (pubOf sk))).length ≤ 63
      ∧ ∀ c ∈ strToLower (base32HexEncodeNoPad (pubOf sk)), charOK c := by
    have hlenp : (strToLower (base32HexEncodeNoPad (pubOf sk))).length = 52 := by
      simp [strToLower, base32_length, hlen32]
    refine ⟨?_, ?_, ?_⟩
    · intro hnil
      have h0 := congrArg List.length hnil
      rw [hlenp] at h0
      simp at h0
    · rw [hlenp]
      omega
    · intro c hc
      simp only [strToLower, List.mem_map] at hc
      obtain ⟨b, hb, rfl⟩ := hc
      exact charOK_toLower_b32 b (base32_chars _ b hb)
  have hsubgood : ∀ l ∈ front ++ relays.map (fun r => strToLower (base32HexEncodeNoPad r)),
      l ≠ [] ∧ l.length ≤ 63 ∧ ∀ c ∈ l, charOK c := by
    intro l hl
    rcases List.mem_append.mp hl with h | h
    · exact hfront l h
    · obtain ⟨r, hr, rfl⟩ := List.mem_map.mp h
      exact hlowenc r hr
  have hsubne : front ++ relays.map (fun r => strToLower (base32HexEncodeNoPad r)) ≠ [] := by
    intro h
    rcases List.append_eq_nil.mp h with ⟨-, h2⟩
    exact hrel (List.map_eq_nil_iff.mp h2)
  have hlen2 : (List.intercalate [46]
      ((front ++ relays.map (fun r => strToLower (base32HexEncodeNoPad r)))
        ++ [strToLower (base32HexEncodeNoPad (pubOf sk)), protocol.nostrBytes])).length ≤ 253 := by
    rw [← hdst]
    exact hlen
  have hParse : protocol.Parse nc.dst = some
      { SubName := List.intercalate [46]
          (front ++ relays.map (fun r => strToLower (base32HexEncodeNoPad r))),
        Name := strToLower (base32HexEncodeNoPad (pubOf sk)),
        TLD := protocol.nostrBytes, Port := [], IsDomain := true } := by
    rw [hdst]
    exact Parse_nostr_labels _ _ hsubne hsubgood hpub hlen2
  have h46f : ∀ l ∈ front ++ relays.map (fun r => strToLower (base32HexEncodeNoPad r)),
      46 ∉ l := by
    intro l hl hmem
    rcases (hsubgood l hl).2.2 46 hmem with ⟨a, b⟩ | ⟨a, b⟩ <;> omega
  have hsplitS : (List.intercalate [46]
      (front ++ relays.map (fun r => strToLower (base32HexEncodeNoPad r)))).splitOn 46
      = front ++ relays.map (fun r => strToLower (base32HexEncodeNoPad r)) :=
    List.splitOn_intercalate _ 46 h46f hsubne
  have hdecpub : base32HexDecodeNoPad
      (strToUpper (strToLower (base32HexEncodeNoPad (pubOf sk)))) = some (pubOf sk) :=
    decode_lower_enc _ (natToBytesBE_bytes_lt 32 _)
  have hfm : (front ++ relays.map (fun r => strToLower (base32HexEncodeNoPad r))).filterMap
      (fun subdomain => base32HexDecodeNoPad (strToUpper subdomain))
      = front.filterMap (fun l => base32HexDecodeNoPad (strToUpper l)) ++ relays := by
    have hpt : ∀ r ∈ relays,
        ((fun subdomain => base32HexDecodeNoPad (strToUpper subdomain)) ∘
          (fun r => strToLower (base32HexEncodeNoPad r))) r = some (id r) := by
      intro r hr
      simp only [Function.comp, id_eq]
      exact decode_lower_enc r (hrelgood r hr).2.2
    have hsecond : (relays.map (fun r => strToLower (base32HexEncodeNoPad r))).filterMap
        (fun subdomain => base32HexDecodeNoPad (strToUpper subdomain)) = relays := by
      rw [List.filterMap_map, filterMap_eq_map_of_some _ id relays hpt, List.map_id]
    rw [List.filterMap_append, hsecond]
  unfold netstr.parseDestinationDomain
  rw [hParse]
  simp [hsplitS, hdecpub, hfm, schnorrParsePubKey, hlen32, serializeCompressed]

end NWS

namespace NWS

/-! ## Claim theorems -/

/-- Whether an `Except` result is an error. -/
def exceptIsError {ε α : Type} (r : Except ε α) : Bool :=
  match r with
  | .error _ => true
  | .ok _ => false

/-- Example write environment used by concrete instantiations. -/
def exProcessEnv : exit.ProcessEnv :=
  { connect := { encodeProfile := fun _ _ => none, dial := fun _ => none },
    reverse := { dialEntry := fun _ => false, writeOk := false, readByte := none,
                 dialBackend := fun _ => false } }

/-- Example exit node used by concrete instantiations. -/
def exExit : exit.Exit :=
  { config := { NostrRelays := [[1]], NostrPrivateKey := [5], BackendHost := [],
                HttpsPort := 0, HttpsTarget := [], Public := false },
    publicKey := [], nprofile := [3], nostrConnectionMap := [] }

/-- C10: a non-public exit configuration never constructs a serving exit
node: `announceExitNode` returns `errNoPublicKey` and `NewExit` treats
every error as fatal, so construction ends in a panic on every path. -/
theorem claim_C10 (env : exit.NewExitEnv) (cfg : exit.ExitConfig)
    (h : cfg.Public = false) : exceptIsError (exit.NewExit env cfg) = true := by
  by_cases h1 : cfg.NostrPrivateKey = [] <;>
  by_cases h2 : env.getPublicKeyOk = false <;>
  rcases h3 : env.encodeProfileOutcome with _ | profile <;>
  by_cases h4 : cfg.HttpsPort = 0 <;>
  by_cases h5 : env.setSubscriptionsOk = false <;>
  simp [exit.NewExit, exit.announceExitNode, exceptIsError, h1, h2, h3, h4, h5, h]

/-- C10 witness. -/
theorem claim_C10_witness :
    exceptIsError (exit.NewExit
      { generatedKey := [], getPublicKeyOk := true,
        encodeProfileOutcome := some [1], setSubscriptionsOk := true }
      exExit.config) = true :=
  claim_C10 _ _ rfl

/-- C8 counterexample: the claim says a decryption failure is never
surfaced to the caller of the stream's read operation; on the entry side
the read path returns the decryption error to its caller. -/
theorem claim_C8_counterexample :
    (netstr.handleNostrRead netstr.emptyConnection 4
      [{ relayPresent := true, relayURL := [], id := 5, pubkey := [], kind := 0,
         content := [1] }]).1 = netstr.ReadOutcome.decryptError := by
  decide

/-- C8 (amended): on the exit, an event whose content fails to decrypt is
dropped and processing continues (no state change, no effect, no error —
`processMessage` returns none); on the entry, the stream's read returns
the decryption error to its caller. -/
theorem claim_C8 :
    (∀ (env : exit.ProcessEnv) (e : exit.Exit) (msg : IncomingEvent),
        nip04Decrypt (nip04ComputeSharedSecret msg.pubkey e.config.NostrPrivateKey)
          msg.content = none →
        exit.processMessage env e msg = (e, [])) ∧
    (∀ (nc : netstr.NostrConnection) (cap : Nat) (ev : IncomingEvent)
        (rest : List IncomingEvent),
        ev.relayPresent = true → ev.id ∉ nc.readIDs →
        nip44Decrypt (GenerateConversationKey nc.privateKey (2 :: ev.pubkey))
          ev.content = none →
        (netstr.handleNostrRead nc cap (ev :: rest)).1
          = netstr.ReadOutcome.decryptError) := by
  constructor
  · intro env e msg h
    simp [exit.processMessage, h]
  · intro nc cap ev rest h1 h2 h3
    simp [netstr.handleNostrRead, h1, h2, h3]

/-- C8 witness. -/
theorem claim_C8_witness :
    exit.processMessage exProcessEnv exExit
        { relayPresent := true, relayURL := [], id := 1, pubkey := [], kind := 0,
          content := [0] } = (exExit, []) ∧
    (netstr.handleNostrRead { netstr.emptyConnection with uuid := 9 } 4
      [{ relayPresent := true, relayURL := [], id := 6, pubkey := [], kind := 0,
         content := [7] }]).1 = netstr.ReadOutcome.decryptError :=
  ⟨claim_C8.1 exProcessEnv exExit _ (by decide),
   claim_C8.2 _ 4 _ [] (by decide) (by decide) (by decide)⟩

/-- Concrete connect environment where the profile encodes and the dial
succeeds. -/
def exConnectEnv : exit.ConnectEnv :=
  { encodeProfile := fun _ _ => some [9], dial := fun _ => some 1 }

/-- An exit whose session map already holds a connection for id 7. -/
def exExitWithSession : exit.Exit :=
  { exExit with nostrConnectionMap := [(7, netstr.emptyConnection)] }

/-- A CONNECT message for the already-registered id 7. -/
def exConnectMsg : protocol.Message :=
  { key := 7, type := protocol.MessageConnect, data := [], destination := [4],
    entryPublicAddress := [] }

/-- C2 counterexample: a CONNECT whose session id is already registered is
not ignored — the backend is dialed again and the registered connection
for that id is replaced. -/
theorem claim_C2_counterexample :
    exit.mapLoad (exit.handleConnect exConnectEnv exExitWithSession
        { relayPresent := true, relayURL := [2], id := 1, pubkey := [], kind := 0,
          content := [] } exConnectMsg).1.nostrConnectionMap 7
      ≠ exit.mapLoad exExitWithSession.nostrConnectionMap 7 ∧
    exit.ExitEffect.dialBackendAttempt [4] ∈
      (exit.handleConnect exConnectEnv exExitWithSession
        { relayPresent := true, relayURL := [2], id := 1, pubkey := [], kind := 0,
          content := [] } exConnectMsg).2 := by
  constructor
  · decide
  · decide

/-- C2 (amended): when the reply profile encodes and the backend dial
succeeds, `handleConnect` — under the per-id lock — always dials the
backend and stores the freshly built connection at the frame's session
id, replacing any previously registered connection; no existence check is
performed. -/
theorem claim_C2 (env : exit.ConnectEnv) (e : exit.Exit) (msg : IncomingEvent)
    (pm : protocol.Message) (receiver : Bytes) (d : Nat)
    (hprof : env.encodeProfile msg.pubkey [msg.relayURL] = some receiver)
    (hdial : env.dial pm.destination = some d) :
    (exit.handleConnect env e msg pm).2
        = [.dialBackendAttempt pm.destination, .proxyStarted, .proxyStarted] ∧
    exit.mapLoad (exit.handleConnect env e msg pm).1.nostrConnectionMap pm.key
        = some (netstr.NewConnection
            [netstr.WithPrivateKey e.config.NostrPrivateKey, netstr.WithDst receiver,
              netstr.WithUUID pm.key]) := by
  constructor
  · simp [exit.handleConnect, hprof, hdial]
  · simp [exit.handleConnect, hprof, hdial, exit.mapLoad, exit.mapStore]

/-- C2 witness. -/
theorem claim_C2_witness :
    (exit.handleConnect exConnectEnv exExitWithSession
        { relayPresent := true, relayURL := [2], id := 2, pubkey := [], kind := 0,
          content := [] } exConnectMsg).2
      = [.dialBackendAttempt [4], .proxyStarted, .proxyStarted] ∧
    exit.mapLoad (exit.handleConnect exConnectEnv exExitWithSession
        { relayPresent := true, relayURL := [2], id := 2, pubkey := [], kind := 0,
          content := [] } exConnectMsg).1.nostrConnectionMap 7
      = some (netstr.NewConnection
          [netstr.WithPrivateKey exExitWithSession.config.NostrPrivateKey,
            netstr.WithDst [9], netstr.WithUUID 7]) :=
  claim_C2 exConnectEnv exExitWithSession _ exConnectMsg [9] 1 rfl rfl

/-- The frame used by the C3 counterexample: its session key 2 differs
from the receiving stream's uuid 1. -/
def exC3frame : protocol.Message :=
  { key := 2, type := [], data := [7], destination := [], entryPublicAddress := [] }

/-- The receiving stream of the C3 counterexample (uuid 1). -/
def exC3nc : netstr.NostrConnection := { netstr.emptyConnection with uuid := 1 }

/-- The incoming event of the C3 counterexample, carrying `exC3frame`
encrypted under the conversation key the stream will derive. -/
def exC3event : IncomingEvent :=
  { relayPresent := true, relayURL := [], id := 5, pubkey := [], kind := 0,
    content := nip44Encrypt
      (GenerateConversationKey exC3nc.privateKey (2 :: ([] : Bytes)))
      (protocol.MarshalJSON exC3frame) }

/-- C3 counterexample: a decrypted, deserialized frame whose session id
(2) differs from the stream's own session id (1) is not dropped — its
data byte is copied to the caller and counted in the returned length. -/
theorem claim_C3_counterexample :
    exC3frame.key ≠ exC3nc.uuid ∧
    (netstr.handleNostrRead exC3nc 8 [exC3event]).1
      = netstr.ReadOutcome.ok (some 5) 1 [7] := by
  constructor
  · decide
  · decide

/-- C3 (amended): the entry-side read path performs no session-id
comparison — every successfully decrypted and deserialized frame has its
data copied into the caller's buffer and counted, whatever its session
id; on the exit side, frames are routed by looking the session id up in
the connection map, and a frame whose id is not registered is dropped
without effect. -/
theorem claim_C3 :
    (∀ (nc : netstr.NostrConnection) (cap : Nat) (ev : IncomingEvent)
        (rest : List IncomingEvent) (pt : Bytes) (msg : protocol.Message),
        ev.relayPresent = true → ev.id ∉ nc.readIDs →
        nip44Decrypt (GenerateConversationKey nc.privateKey (2 :: ev.pubkey))
          ev.content = some pt →
        protocol.UnmarshalJSON pt = some msg →
        (netstr.handleNostrRead nc cap (ev :: rest)).1
          = netstr.ReadOutcome.ok (some ev.id) (min cap msg.data.length)
              (msg.data.take cap)) ∧
    (∀ (e : exit.Exit) (msg : IncomingEvent) (pm : protocol.Message),
        exit.mapLoad e.nostrConnectionMap pm.key = none →
        exit.handleSocks5ProxyMessage e msg pm = []) := by
  constructor
  · intro nc cap ev rest pt msg h1 h2 h3 h4
    simp [netstr.handleNostrRead, h1, h2, h3, h4]
  · intro e msg pm h
    simp [exit.handleSocks5ProxyMessage, h]

/-- C3 witness. -/
theorem claim_C3_witness :
    (netstr.handleNostrRead exC3nc 8 [exC3event]).1
      = netstr.ReadOutcome.ok (some exC3event.id) (min 8 exC3frame.data.length)
          (exC3frame.data.take 8) ∧
    exit.handleSocks5ProxyMessage exExit
      { relayPresent := true, relayURL := [], id := 1, pubkey := [], kind := 0,
        content := [] } exConnectMsg = [] :=
  ⟨claim_C3.1 exC3nc 8 exC3event [] (protocol.MarshalJSON exC3frame) exC3frame
      (by decide) (by decide) (by decide) (by decide),
   claim_C3.2 exExit _ exConnectMsg (by decide)⟩

/-- C4: event-id deduplication of the stream read loop: across any queue
of deliveries (duplicates included), the ids surfaced by `read` contain
no duplicate, and a delivery whose id is already recorded as read is
skipped outright. -/
theorem claim_C4 (nc : netstr.NostrConnection) (cap : Nat)
    (queue : List IncomingEvent) :
    ((netstr.readTrace nc cap queue).map Prod.fst).Nodup ∧
    (∀ (ev : IncomingEvent) (rest : List IncomingEvent),
      ev.relayPresent = true → ev.id ∈ nc.readIDs →
      netstr.handleNostrRead nc cap (ev :: rest)
        = netstr.handleNostrRead nc cap rest) := by
  constructor
  · exact (netstr.readTrace_fresh_nodup cap queue.length queue le_rfl nc).2
  · intro ev rest h1 h2
    simp [netstr.handleNostrRead, h1, h2]

/-- A connection that has already read event id 6. -/
def exC4nc : netstr.NostrConnection := { netstr.emptyConnection with readIDs := [6] }

/-- A delivery of the already-read event id 6. -/
def exC4ev : IncomingEvent :=
  { relayPresent := true, relayURL := [], id := 6, pubkey := [], kind := 0,
    content := [3] }

/-- C4 witness. -/
theorem claim_C4_witness :
    ((netstr.readTrace exC4nc 4 [exC4ev, exC4ev]).map Prod.fst).Nodup ∧
    netstr.handleNostrRead exC4nc 4 [exC4ev] = netstr.handleNostrRead exC4nc 4 [] :=
  ⟨(claim_C4 exC4nc 4 [exC4ev, exC4ev]).1,
   (claim_C4 exC4nc 4 []).2 exC4ev [] (by decide) (by decide)⟩

/-- The `EnsureRelay` outcome of the C1 scenarios: always connected. -/
def exC1ens : Bytes → Bool := fun _ => true

/-- The `Publish` outcome of the C1 scenarios: relay `[1]` rejects, every
other relay accepts. -/
def exC1pub : Bytes → protocol.NostrEvent → Bool := fun r _ => !decide (r = [1])

/-- An event to publish in the C1 scenarios. -/
def exC1ev : protocol.NostrEvent :=
  { pubkey := [], createdAt := 0, kind := 0, tags := [], content := [],
    id := 0, signed := false }

/-- C1 counterexample: with relays `[[1], [2]]` where `[1]` rejects the
event and `[2]` would accept it, the write fails even though one relay
accepts, and the event is never published to `[2]` — one relay's failure
does prevent publishing to the remaining relays. -/
theorem claim_C1_counterexample :
    (netstr.publishEventToRelays exC1ens exC1pub exC1ev [[1], [2]]).1
        = .error "could not publish event to relay" ∧
    exC1pub [2] exC1ev = true ∧
    netstr.RelayOp.published [2] exC1ev
      ∉ (netstr.publishEventToRelays exC1ens exC1pub exC1ev [[1], [2]]).2 := by
  refine ⟨by rfl, by decide, by decide⟩

/-- C1 (amended): the publish loop is sequential and fail-fast.  The
write succeeds exactly when every resolved relay accepts the event; the
performed relay calls cover the longest accepting front of the relay
list, plus at most the failed `EnsureRelay`/`Publish` attempt at the
first rejecting relay — relays after it are never attempted.  The write
operation returns the full buffer length exactly when this loop
succeeds. -/
theorem claim_C1 :
    (∀ (ensure : Bytes → Bool) (publish : Bytes → protocol.NostrEvent → Bool)
        (ev : protocol.NostrEvent) (relays : List Bytes),
      (((netstr.publishEventToRelays ensure publish ev relays).1 = .ok ())
        ↔ ∀ r ∈ relays, ensure r = true ∧ publish r ev = true) ∧
      (netstr.publishEventToRelays ensure publish ev relays).2
        = (relays.takeWhile (fun r => ensure r && publish r ev)).flatMap
            (fun r => [netstr.RelayOp.ensured r, netstr.RelayOp.published r ev])
          ++ (match relays.dropWhile (fun r => ensure r && publish r ev) with
              | [] => []
              | r :: _ => if ensure r then [netstr.RelayOp.ensured r] else [])) ∧
    (∀ (env : netstr.WriteEnv) (nc : netstr.NostrConnection) (buffer : Bytes)
        (pk : Bytes) (relays : List Bytes),
      env.ctxErr = false →
      netstr.parseDestination env.nip19Decode nc = some (pk, relays) →
      (((netstr.handleNostrWrite env nc buffer).1 = .ok buffer.length)
        ↔ (netstr.publishEventToRelays env.ensure env.publish
            (netstr.createSignedEvent nc (protocol.NewEventSigner nc.privateKey)
              env.now buffer pk).1 relays).1 = .ok ())) := by
  constructor
  · intro ensure publish ev relays
    induction relays with
    | nil => simp [netstr.publishEventToRelays]
    | cons r rest ih =>
      by_cases he : ensure r = false
      · simp [netstr.publishEventToRelays, he, List.takeWhile_cons,
          List.dropWhile_cons]
      · by_cases hp : publish r ev = false
        · simp [netstr.publishEventToRelays, he, hp, List.takeWhile_cons,
            List.dropWhile_cons]
        · have he' : ensure r = true := by revert he; cases ensure r <;> simp
          have hp' : publish r ev = true := by revert hp; cases publish r ev <;> simp
          simp [netstr.publishEventToRelays, he', hp', List.takeWhile_cons,
            List.dropWhile_cons, ih.1, ih.2]
  · intro env nc buffer pk relays hctx hparse
    simp only [netstr.handleNostrWrite, hctx, Bool.false_eq_true, if_false, hparse]
    rcases hres : (netstr.publishEventToRelays env.ensure env.publish
        (netstr.createSignedEvent nc (protocol.NewEventSigner nc.privateKey)
          env.now buffer pk).1 relays).1 with e | u
    · simp [hres]
    · simp [hres]

/-- The write environment of the C1 witness: live context, `npub`
destination resolving to key `[1]` with no relays, all relay calls
accepted. -/
def exC1env : netstr.WriteEnv :=
  { ctxErr := false, now := 0, nip19Decode := fun _ => some (.npub [1]),
    ensure := fun _ => true, publish := fun _ _ => true }

/-- The stream of the C1 witness, dialing an `npub` destination. -/
def exC1nc : netstr.NostrConnection :=
  { netstr.emptyConnection with dst := netstr.npubBytes }

/-- C1 witness. -/
theorem claim_C1_witness :
    (((netstr.publishEventToRelays exC1ens exC1pub exC1ev [[2]]).1 = .ok ())
      ↔ ∀ r ∈ [[2]], exC1ens r = true ∧ exC1pub r exC1ev = true) ∧
    (((netstr.handleNostrWrite exC1env exC1nc [1, 2]).1 = .ok ([1, 2] : Bytes).length)
      ↔ (netstr.publishEventToRelays exC1env.ensure exC1env.publish
          (netstr.createSignedEvent exC1nc (protocol.NewEventSigner exC1nc.privateKey)
            exC1env.now [1, 2] [1]).1 []).1 = .ok ()) :=
  ⟨(claim_C1.1 exC1ens exC1pub exC1ev [[2]]).1,
   claim_C1.2 exC1env exC1nc [1, 2] [1] [] (by decide) (by rfl)⟩

/-- C6: every stream event the core emits carries the
`KindEphemeralEvent` kind, whose value is 28333, and both stream
subscriptions filter on exactly that kind: the one the entry opens on its
first write, and the one the exit opens on startup. -/
theorem claim_C6 :
    protocol.KindEphemeralEvent = 28333 ∧
    (∀ (s : protocol.EventSigner) (now : Nat) (pk : Bytes) (k : Nat)
        (tags : List protocol.Tag) (opts : List protocol.MessageOption),
      (protocol.EventSigner.CreateSignedEvent s now pk k tags opts).kind = k) ∧
    (∀ (nc : netstr.NostrConnection) (signer : protocol.EventSigner) (now : Nat)
        (b : Bytes) (pk : Bytes),
      (netstr.createSignedEvent nc signer now b pk).1.kind = 28333) ∧
    (∀ (nc : netstr.NostrConnection) (signer : protocol.EventSigner) (now : Nat)
        (b : Bytes) (pk : Bytes) (f : netstr.Filter),
      (netstr.createSignedEvent nc signer now b pk).2.2 = some f →
      f.kinds = [28333]) ∧
    (∀ pk : Bytes, (exit.exitSubscriptionFilter pk).kinds = [28333]) := by
  refine ⟨rfl, ?_, ?_, ?_, ?_⟩
  · intro s now pk k tags opts
    simp [protocol.EventSigner.CreateSignedEvent, protocol.EventSigner.CreateEvent,
      protocol.signEvent]
  · intro nc signer now b pk
    simp only [netstr.createSignedEvent]
    split
    · simp [protocol.EventSigner.CreateSignedEvent, protocol.EventSigner.CreateEvent,
        protocol.signEvent, protocol.KindEphemeralEvent]
    · split
      · simp [protocol.EventSigner.CreateSignedEvent, protocol.EventSigner.CreateEvent,
          protocol.signEvent, protocol.KindEphemeralEvent]
      · simp [protocol.EventSigner.CreateSignedEvent, protocol.EventSigner.CreateEvent,
          protocol.signEvent, protocol.KindEphemeralEvent]
  · intro nc signer now b pk f h
    simp only [netstr.createSignedEvent] at h
    revert h
    split
    · intro h; cases h
    · split
      · intro h
        cases h
        rfl
      · intro h; cases h
  · intro pk
    rfl

/-- C6 witness. -/
theorem claim_C6_witness :
    ({ kinds := [protocol.KindEphemeralEvent], authors := [([] : Bytes)],
       tagPValues := [pubOf []], sinceSet := true } : netstr.Filter).kinds
      = [28333] :=
  claim_C6.2.2.2.1 { netstr.emptyConnection with sub := true }
    (protocol.NewEventSigner []) 0 [] [] _ (by rfl)

/-- Whether an exit effect is a file write. -/
def exitEffectIsFileWrite : exit.ExitEffect → Bool
  | .fileWrite _ => true
  | _ => false

/-- A certificate-bootstrap environment whose library calls all
succeed. -/
def exCertEnv : exit.CertEnv :=
  { certPEM := [1], keyPEM := [2], writeFileOk := true,
    store := { ensure := fun _ => true, publish := fun _ => true }, now := 0 }

/-- C9 counterexample: the certificate-bootstrap path writes the private
key PEM to the local file `<nprofile>.key` — the exit does persist state
to local disk. -/
theorem claim_C9_counterexample :
    exit.ExitEffect.fileWrite (exExit.nprofile ++ exit.dotKeySuffixBytes)
      ∈ (exit.createAndStoreCertificateData exCertEnv exExit).2 := by
  decide

/-- Every effect of the shared store publish loop is a publish of the
given kind. -/
theorem storePublishLoop_effects (env : exit.StoreEnv) (kind : Nat) :
    ∀ (relays : List Bytes), ∀ eff ∈ (exit.storePublishLoop env kind relays).2,
      ∃ r, eff = .publishedEv r kind := by
  intro relays
  induction relays with
  | nil => intro eff heff; simp [exit.storePublishLoop] at heff
  | cons r rest ih =>
    intro eff heff
    by_cases he : env.ensure r = false
    · simp [exit.storePublishLoop, he] at heff
    · by_cases hp : env.publish r = false
      · simp [exit.storePublishLoop, he, hp] at heff
      · have he' : env.ensure r = true := by revert he; cases env.ensure r <;> simp
        have hp' : env.publish r = true := by revert hp; cases env.publish r <;> simp
        simp only [exit.storePublishLoop, he', hp'] at heff
        simp only [Bool.true_eq_false, if_false] at heff
        rcases List.mem_cons.mp heff with h1 | h2
        · exact ⟨r, h1⟩
        · exact ih eff h2

/-- C9 (amended): the certificate and private-key events are stored only
by publishing to relays — the two store functions produce publish effects
exclusively — but `createAndStoreCertificateData` additionally performs
exactly one local file write, saving the key PEM to `<nprofile>.key`. -/
theorem claim_C9 :
    (∀ (senv : exit.StoreEnv) (e : exit.Exit) (pem : Bytes) (now : Nat),
      ∀ eff ∈ (exit.storeCertificate senv e pem now).2,
        ∃ r, eff = .publishedEv r exit.KindTextNote) ∧
    (∀ (senv : exit.StoreEnv) (e : exit.Exit) (pem : Bytes) (now : Nat),
      ∀ eff ∈ (exit.storePrivateKey senv e pem now).2,
        ∃ r, eff = .publishedEv r exit.KindEncryptedDirectMessage) ∧
    (∀ (cenv : exit.CertEnv) (e : exit.Exit),
      (exit.createAndStoreCertificateData cenv e).2.filter exitEffectIsFileWrite
        = [.fileWrite (e.nprofile ++ exit.dotKeySuffixBytes)]) := by
  have hcert : ∀ (senv : exit.StoreEnv) (e : exit.Exit) (pem : Bytes) (now : Nat),
      ∀ eff ∈ (exit.storeCertificate senv e pem now).2,
        ∃ r, eff = exit.ExitEffect.publishedEv r exit.KindTextNote := by
    intro senv e pem now eff heff
    refine storePublishLoop_effects senv exit.KindTextNote e.config.NostrRelays eff ?_
    simpa [exit.storeCertificate] using heff
  have hkey : ∀ (senv : exit.StoreEnv) (e : exit.Exit) (pem : Bytes) (now : Nat),
      ∀ eff ∈ (exit.storePrivateKey senv e pem now).2,
        ∃ r, eff = exit.ExitEffect.publishedEv r exit.KindEncryptedDirectMessage := by
    intro senv e pem now eff heff
    refine storePublishLoop_effects senv exit.KindEncryptedDirectMessage
      e.config.NostrRelays eff ?_
    simpa [exit.storePrivateKey] using heff
  have hnf : ∀ (l : List exit.ExitEffect) (k : Nat),
      (∀ eff ∈ l, ∃ r, eff = exit.ExitEffect.publishedEv r k) →
      l.filter exitEffectIsFileWrite = [] := by
    intro l k hall
    rw [List.filter_eq_nil_iff]
    intro a ha
    rcases hall a ha with ⟨r, rfl⟩
    simp [exitEffectIsFileWrite]
  refine ⟨hcert, hkey, ?_⟩
  intro cenv e
  by_cases hw : cenv.writeFileOk = false
  · simp [exit.createAndStoreCertificateData, hw, List.filter, exitEffectIsFileWrite]
  · have hw' : cenv.writeFileOk = true := by revert hw; cases cenv.writeFileOk <;> simp
    simp only [exit.createAndStoreCertificateData, hw']
    simp only [Bool.true_eq_false, if_false]
    have h1 := hnf _ _ (hcert cenv.store e cenv.certPEM cenv.now)
    have h2 := hnf _ _ (hkey cenv.store e cenv.keyPEM cenv.now)
    rcases hres : (exit.storeCertificate cenv.store e cenv.certPEM cenv.now).1 with msg | u
    · simp [hres, List.filter_cons, exitEffectIsFileWrite, h1]
    · simp [hres, List.filter_append, List.filter_cons, exitEffectIsFileWrite, h1, h2]

/-- C9 witness. -/
theorem claim_C9_witness :
    (∃ r, exit.ExitEffect.publishedEv [1] exit.KindTextNote
        = exit.ExitEffect.publishedEv r exit.KindTextNote) ∧
    (exit.createAndStoreCertificateData exCertEnv exExit).2.filter exitEffectIsFileWrite
      = [.fileWrite (exExit.nprofile ++ exit.dotKeySuffixBytes)] :=
  ⟨claim_C9.1 exCertEnv.store exExit [1] 0 _ (by decide),
   claim_C9.2.2 exCertEnv exExit⟩

/-- C5: the encrypt-then-decrypt round trip of the stream codec, composed
exactly as the repository composes it: for all key pairs and every frame,
the content produced by the writer's `CreateSignedEvent` (conversation key
from `(priv_a, "02"+pub_b)`, serialized frame, nip44 encryption) is
decrypted by the reader's path (conversation key from
`(priv_b, "02"+event.pubkey)`) back to the serialized frame, the frame
deserializes to the original, and a full read surfaces exactly the
frame's data bytes. -/
theorem claim_C5 (privA privB : Bytes) (now : Nat)
    (opts : List protocol.MessageOption) (cap : Nat)
    (nc : netstr.NostrConnection) (i : Nat) (r : Bytes)
    (rest : List IncomingEvent)
    (hpriv : nc.privateKey = privB) (hfresh : i ∉ nc.readIDs) :
    nip44Decrypt
        (GenerateConversationKey privB
          (2 :: ((protocol.NewEventSigner privA).CreateSignedEvent now (pubOf privB)
            protocol.KindEphemeralEvent [(protocol.tagP, pubOf privB)] opts).pubkey))
        ((protocol.NewEventSigner privA).CreateSignedEvent now (pubOf privB)
          protocol.KindEphemeralEvent [(protocol.tagP, pubOf privB)] opts).content
      = some (protocol.MarshalJSON (protocol.NewMessage opts)) ∧
    protocol.UnmarshalJSON (protocol.MarshalJSON (protocol.NewMessage opts))
      = some (protocol.NewMessage opts) ∧
    (netstr.handleNostrRead nc cap
        ({ relayPresent := true, relayURL := r, id := i,
           pubkey := ((protocol.NewEventSigner privA).CreateSignedEvent now (pubOf privB)
             protocol.KindEphemeralEvent [(protocol.tagP, pubOf privB)] opts).pubkey,
           kind := ((protocol.NewEventSigner privA).CreateSignedEvent now (pubOf privB)
             protocol.KindEphemeralEvent [(protocol.tagP, pubOf privB)] opts).kind,
           content := ((protocol.NewEventSigner privA).CreateSignedEvent now (pubOf privB)
             protocol.KindEphemeralEvent [(protocol.tagP, pubOf privB)] opts).content }
          :: rest)).1
      = netstr.ReadOutcome.ok (some i)
          (min cap (protocol.NewMessage opts).data.length)
          ((protocol.NewMessage opts).data.take cap) := by
  have hpubkey : ((protocol.NewEventSigner privA).CreateSignedEvent now (pubOf privB)
      protocol.KindEphemeralEvent [(protocol.tagP, pubOf privB)] opts).pubkey
      = pubOf privA := by
    simp [protocol.EventSigner.CreateSignedEvent, protocol.EventSigner.CreateEvent,
      protocol.signEvent, protocol.NewEventSigner]
  have hcontent : ((protocol.NewEventSigner privA).CreateSignedEvent now (pubOf privB)
      protocol.KindEphemeralEvent [(protocol.tagP, pubOf privB)] opts).content
      = nip44Encrypt (GenerateConversationKey privA (2 :: pubOf privB))
          (protocol.MarshalJSON (protocol.NewMessage opts)) := by
    simp [protocol.EventSigner.CreateSignedEvent, protocol.EventSigner.CreateEvent,
      protocol.signEvent, protocol.NewEventSigner, protocol.GetEncryptionKeys]
  have hdec : nip44Decrypt
      (GenerateConversationKey privB
        (2 :: ((protocol.NewEventSigner privA).CreateSignedEvent now (pubOf privB)
          protocol.KindEphemeralEvent [(protocol.tagP, pubOf privB)] opts).pubkey))
      ((protocol.NewEventSigner privA).CreateSignedEvent now (pubOf privB)
        protocol.KindEphemeralEvent [(protocol.tagP, pubOf privB)] opts).content
      = some (protocol.MarshalJSON (protocol.NewMessage opts)) := by
    rw [hpubkey, hcontent, ← GenerateConversationKey_symm privA privB,
      nip44Decrypt_nip44Encrypt]
  refine ⟨hdec, protocol.unmarshal_marshal _, ?_⟩
  rw [hpubkey] at hdec
  simp [netstr.handleNostrRead, hfresh, hpubkey, hpriv, hdec,
    protocol.unmarshal_marshal]

/-- C5 witness. -/
theorem claim_C5_witness :
    nip44Decrypt
        (GenerateConversationKey [2]
          (2 :: ((protocol.NewEventSigner [1]).CreateSignedEvent 0 (pubOf [2])
            protocol.KindEphemeralEvent [(protocol.tagP, pubOf [2])]
            [protocol.WithData [9]]).pubkey))
        ((protocol.NewEventSigner [1]).CreateSignedEvent 0 (pubOf [2])
          protocol.KindEphemeralEvent [(protocol.tagP, pubOf [2])]
          [protocol.WithData [9]]).content
      = some (protocol.MarshalJSON (protocol.NewMessage [protocol.WithData [9]])) ∧
    protocol.UnmarshalJSON
        (protocol.MarshalJSON (protocol.NewMessage [protocol.WithData [9]]))
      = some (protocol.NewMessage [protocol.WithData [9]]) ∧
    (netstr.handleNostrRead { netstr.emptyConnection with privateKey := [2] } 4
        [{ relayPresent := true, relayURL := [], id := 1,
           pubkey := ((protocol.NewEventSigner [1]).CreateSignedEvent 0 (pubOf [2])
             protocol.KindEphemeralEvent [(protocol.tagP, pubOf [2])]
             [protocol.WithData [9]]).pubkey,
           kind := ((protocol.NewEventSigner [1]).CreateSignedEvent 0 (pubOf [2])
             protocol.KindEphemeralEvent [(protocol.tagP, pubOf [2])]
             [protocol.WithData [9]]).kind,
           content := ((protocol.NewEventSigner [1]).CreateSignedEvent 0 (pubOf [2])
             protocol.KindEphemeralEvent [(protocol.tagP, pubOf [2])]
             [protocol.WithData [9]]).content }]).1
      = netstr.ReadOutcome.ok (some 1)
          (min 4 (protocol.NewMessage [protocol.WithData [9]]).data.length)
          ((protocol.NewMessage [protocol.WithData [9]]).data.take 4) :=
  claim_C5 [1] [2] 0 [protocol.WithData [9]] 4
    { netstr.emptyConnection with privateKey := [2] } 1 [] [] rfl (by decide)

/-- The configuration of the C7 counterexample: a single 40-byte relay
URL, whose base32 label runs to 64 characters — beyond the 63-character
label bound `IsDomainName` enforces. -/
def exC7badCfg : exit.ExitConfig :=
  { NostrRelays := [List.replicate 40 97], NostrPrivateKey := [1],
    BackendHost := [], HttpsPort := 0, HttpsTarget := [], Public := true }

set_option maxRecDepth 100000 in
/-- C7 counterexample: the round trip is not universal — for a 40-byte
relay URL the domain `getDomain` generates is rejected by the entry's
destination parser (`parseDestinationDomain` returns `none` rather than
the exit public key with the relay list). -/
theorem claim_C7_counterexample :
    netstr.parseDestinationDomain
        { netstr.emptyConnection with dst := exit.getDomain exC7badCfg }
      = none := by
  rfl

/-- C7 (amended): when the relay list is nonempty, every relay URL is
nonempty, at most 39 bytes and byte-valued, and the generated domain
(plus any extra front label) fits the 253-character bound, the `.nostr`
domain the exit generates resolves back to exactly the exit public key
and the same relay URLs in the same order; and a well-formed front label
that fails base32-hex decoding is skipped without failing the
resolution.  The frozen universal claim is refuted by
`claim_C7_counterexample`: a 40-byte relay URL yields a 64-character
label, which `IsDomainName` rejects, and resolution fails. -/
theorem claim_C7 (cfg : exit.ExitConfig) (nc : netstr.NostrConnection) (bad : Bytes)
    (hrel : cfg.NostrRelays ≠ [])
    (hrelgood : ∀ r ∈ cfg.NostrRelays, r ≠ [] ∧ r.length ≤ 39 ∧ ∀ b ∈ r, b < 256)
    (hlen : bad.length + 1 + (exit.getDomain cfg).length ≤ 253)
    (hbadlab : bad ≠ [] ∧ bad.length ≤ 63 ∧ ∀ c ∈ bad, charOK c)
    (hbaddec : base32HexDecodeNoPad (strToUpper bad) = none) :
    netstr.parseDestinationDomain { nc with dst := exit.getDomain cfg }
        = some (pubOf cfg.NostrPrivateKey, cfg.NostrRelays)
    ∧ netstr.parseDestinationDomain { nc with dst := bad ++ 46 :: exit.getDomain cfg }
        = some (pubOf cfg.NostrPrivateKey, cfg.NostrRelays) := by
  have hgd := getDomain_eq cfg hrel (fun r hr => (hrelgood r hr).1)
  constructor
  · have h := parseDestinationDomain_labels
      { nc with dst := exit.getDomain cfg } [] cfg.NostrRelays cfg.NostrPrivateKey
      (by intro l hl; simp at hl)
      hrel hrelgood
      (by
        show exit.getDomain cfg = _
        rw [hgd]
        simp)
      (by
        show (exit.getDomain cfg).length ≤ 253
        omega)
    simpa using h
  · have h := parseDestinationDomain_labels
      { nc with dst := bad ++ 46 :: exit.getDomain cfg } [bad] cfg.NostrRelays
      cfg.NostrPrivateKey
      (by
        intro l hl
        simp only [List.mem_singleton] at hl
        subst hl
        exact hbadlab)
      hrel hrelgood
      (by
        show bad ++ 46 :: exit.getDomain cfg = _
        rw [hgd]
        rw [show (([bad] ++ cfg.NostrRelays.map (fun r => strToLower (base32HexEncodeNoPad r)))
              ++ [strToLower (base32HexEncodeNoPad (pubOf cfg.NostrPrivateKey)),
                  protocol.nostrBytes] : List Bytes)
            = bad :: (cfg.NostrRelays.map (fun r => strToLower (base32HexEncodeNoPad r))
              ++ [strToLower (base32HexEncodeNoPad (pubOf cfg.NostrPrivateKey)),
                  protocol.nostrBytes]) from by simp]
        rw [intercalate_46_cons _ _ (by simp)])
      (by
        show (bad ++ 46 :: exit.getDomain cfg).length ≤ 253
        simp only [List.length_append, List.length_cons]
        omega)
    simpa [List.filterMap_cons, hbaddec] using h

/-- The C7 witness configuration: one 1-byte relay URL. -/
def exC7cfg : exit.ExitConfig :=
  { NostrRelays := [[119]], NostrPrivateKey := [1], BackendHost := [],
    HttpsPort := 0, HttpsTarget := [], Public := true }

set_option maxRecDepth 100000 in
/-- C7 witness. -/
theorem claim_C7_witness :
    ([[119]] : List Bytes) ≠ [] ∧
    base32HexDecodeNoPad (strToUpper [119, 119]) = none ∧
    (netstr.parseDestinationDomain
        { netstr.emptyConnection with dst := exit.getDomain exC7cfg }
      = some (pubOf [1], [[119]]) ∧
    netstr.parseDestinationDomain
        { netstr.emptyConnection with dst := [119, 119] ++ 46 :: exit.getDomain exC7cfg }
      = some (pubOf [1], [[119]])) :=
  ⟨by decide, by decide,
   claim_C7 exC7cfg netstr.emptyConnection [119, 119]
     (by decide)
     (by decide)
     (by decide)
     ⟨by decide, by decide, by decide⟩
     (by decide)⟩

end NWS
